import Mathlib

/-!
Verification of the explicit-state model-checking engine: breadth-first
reachability search with path reconstruction, a guarded-rule ("Soup")
transition-system engine, property automata, the synchronous system/property
composition, and the nested-DFS Buchi verifier with lasso counter-example
extraction.

Each Python component is embedded as an executable Lean function; mutable
bookkeeping (visited sets, parent dictionaries, queues, explicit DFS stacks)
becomes explicit state threaded through structurally or well-founded
recursive loops.  Python dictionaries written once per key are modelled as
association lists or as functions into Option.
-/

/- ===================================================================
   Generic graph-theoretic notions used by the specifications.
   =================================================================== -/

/-- Successor-list edge relation: there is an edge from u to v when v occurs
in the successor list of u. -/
def EdgeFn {V : Type} (succs : V → List V) (u v : V) : Prop :=
  v ∈ succs u

/-- Reachability: reflexive-transitive closure of the successor edges. -/
def ReachOf {V : Type} (succs : V → List V) (u v : V) : Prop :=
  Relation.ReflTransGen (EdgeFn succs) u v

/-- A non-empty vertex sequence that starts at a, ends at b, and follows
successor edges.  Its length counts vertices, not edges. -/
def IsPathFrom {V : Type} (succs : V → List V) (a b : V) (l : List V) : Prop :=
  l.head? = some a ∧ l.getLast? = some b ∧ l.Chain' (EdgeFn succs)

/-- Walk induced by a parent map: ParChainTo par v l r holds when l is the
sequence v, par v, par (par v), ... finishing at the parentless vertex r. -/
inductive ParChainTo {V : Type} (par : V → Option V) : V → List V → V → Prop
  | nil (r : V) : par r = none → ParChainTo par r [r] r
  | cons (v p : V) (l : List V) (r : V) :
      par v = some p → ParChainTo par p l r → ParChainTo par v (v :: l) r

/-- Pointwise update of a parent map held as a function into Option. -/
def parUpdate {V : Type} [DecidableEq V] (par : V → Option V) (x c : V) :
    V → Option V :=
  fun t => if t = x then some c else par t

/-- Weight of an explicit DFS stack: each frame counts one plus its number of
still-unexplored successors.  Used only as a termination measure. -/
def stackWeight {V : Type} (st : List (V × List V)) : Nat :=
  (st.map (fun e => 1 + e.2.length)).sum

/- ===================================================================
   1-bfs/bfs.py: class BFS (explore / get_path).
   =================================================================== -/

/-- The mutable state of a BFS object: the visited set, the successor-list
graph built during exploration (a dict), and the parent pointers (a dict
whose value for the root is None). -/
structure BFSData (S : Type) where
  visited : Finset S
  graph : List (S × List S)
  parent : List (S × Option S)

/-- Python dict assignment graph[k] = v: replace the binding if the key is
present, otherwise append it. -/
def graphUpdate {S : Type} [DecidableEq S] :
    List (S × List S) → S → List S → List (S × List S)
  | [], k, v => [(k, v)]
  | (k', v') :: t, k, v =>
      if k' = k then (k, v) :: t else (k', v') :: graphUpdate t k v

/-- Python self.parent.get(s): None when the key is absent, the stored value
(itself possibly None, for the root) when present. -/
def parLookup {S : Type} [DecidableEq S] (par : List (S × Option S)) (s : S) :
    Option S :=
  match par.find? (fun e => decide (e.1 = s)) with
  | some e => e.2
  | none => none

/-- The explore loop of BFS.explore: the outer while over the queue and the
inner for over the successors of the dequeued state, flattened into one
recursion.  scan = some (c, rem) means the dequeued state c still has the
successors rem to process. -/
def exploreGo {S : Type} [DecidableEq S] [Fintype S] (f : S → List S) :
    Option (S × List S) → List S → BFSData S → BFSData S
  | some (c, s :: rem), q, d =>
      if s ∈ d.visited then
        exploreGo f (some (c, rem)) q d
      else
        exploreGo f (some (c, rem)) (q ++ [s])
          ⟨insert s d.visited, d.graph, d.parent ++ [(s, some c)]⟩
  | some (_, []), q, d => exploreGo f none q d
  | none, c :: q, d =>
      exploreGo f (some (c, f c)) q ⟨d.visited, graphUpdate d.graph c (f c), d.parent⟩
  | none, [], d => d
  termination_by scan q d =>
    ((Finset.univ \ d.visited).card, q.length,
      match scan with | none => 0 | some e => e.2.length + 1)
  decreasing_by
    · apply Prod.Lex.right'
      · exact le_refl _
      · apply Prod.Lex.right'
        · exact le_refl _
        · (try simp only [List.length_cons]); omega
    · apply Prod.Lex.left
      apply Finset.card_lt_card
      rw [Finset.ssubset_iff_of_subset
        (Finset.sdiff_subset_sdiff (le_refl _) (Finset.subset_insert _ _))]
      exact ⟨s, by simp [*], by simp⟩
    · apply Prod.Lex.right'
      · exact le_refl _
      · apply Prod.Lex.right'
        · exact le_refl _
        · (try simp only [List.length_cons]); omega
    · apply Prod.Lex.right'
      · exact le_refl _
      · apply Prod.Lex.left
        (try simp only [List.length_cons]); omega

/-- BFS.explore: seed the queue, visited set, parent dict and graph dict with
the initial state, then run the loop. -/
def explore {S : Type} [DecidableEq S] [Fintype S] (f : S → List S)
    (initial_state : S) : BFSData S :=
  exploreGo f none [initial_state]
    ⟨{initial_state}, [(initial_state, [])], [(initial_state, none)]⟩

/-- The statistics dictionary returned by BFS.explore:
(total_states, total_transitions). -/
def exploreStats {S : Type} (d : BFSData S) : Nat × Nat :=
  (d.visited.card, (d.graph.map (fun e => e.2.length)).sum)

/-- The backtracking while-loop of BFS.get_path: follow parent pointers until
a None parent, accumulating the sequence already reversed.  The fuel bounds
the number of steps; it is instantiated with the number of states, which the
exploration invariants show is never reached. -/
def getPathGo {S : Type} [DecidableEq S] (par : List (S × Option S)) :
    Nat → Option S → List S → List S
  | _, none, acc => acc
  | 0, some _, acc => acc
  | n + 1, some c, acc => getPathGo par n (parLookup par c) (c :: acc)

/-- BFS.get_path: empty when the target was never visited; otherwise the
reversed parent walk, guarded to be empty unless its first element is the
requested start. -/
def get_path {S : Type} [DecidableEq S] [Fintype S] (d : BFSData S)
    (start finish : S) : List S :=
  if finish ∈ d.visited then
    let path := getPathGo d.parent (Fintype.card S) (some finish) []
    if path.head? = some start then path else []
  else []

/- ===================================================================
   common/rootedgraph.py and common/bfs.py: breadth_first_search.
   =================================================================== -/

/-- RootedGraph interface: root vertices and a neighbor function. -/
structure RootedGraph (S : Type) where
  roots : List S
  neighbors : S → List S

/-- Fold the observer callback over a list of visited states, threading the
user data; models the sequence of on_entry invocations. -/
def applyEntries {S O : Type} (on_entry : S → O → Bool × O) (l : List S)
    (userdata : O) : O :=
  l.foldl (fun acc s => (on_entry s acc).2) userdata

/-- The main while-loop of breadth_first_search, with the inner for over
neighbors flattened in (scan = some (c, rem) while the neighbors rem of the
dequeued vertex c remain).  The callback returns its stop decision together
with the updated user data; returning true stops the whole search
immediately. -/
def bfsGo {S O : Type} [DecidableEq S] [Fintype S] (rg : RootedGraph S)
    (on_entry : S → O → Bool × O) :
    Option (S × List S) → List S → Finset S → O → O × Finset S
  | some (c, n :: ns), q, vis, userdata =>
      if n ∈ vis then
        bfsGo rg on_entry (some (c, ns)) q vis userdata
      else
        match on_entry n userdata with
        | (stop, userdata') =>
            if stop then (userdata', insert n vis)
            else bfsGo rg on_entry (some (c, ns)) (q ++ [n]) (insert n vis) userdata'
  | some (_, []), q, vis, userdata => bfsGo rg on_entry none q vis userdata
  | none, c :: q, vis, userdata =>
      bfsGo rg on_entry (some (c, rg.neighbors c)) q vis userdata
  | none, [], vis, userdata => (userdata, vis)
  termination_by scan q vis _ =>
    ((Finset.univ \ vis).card, q.length,
      match scan with | none => 0 | some e => e.2.length + 1)
  decreasing_by
    · apply Prod.Lex.right'
      · exact le_refl _
      · apply Prod.Lex.right'
        · exact le_refl _
        · (try simp only [List.length_cons]); omega
    · apply Prod.Lex.left
      apply Finset.card_lt_card
      rw [Finset.ssubset_iff_of_subset
        (Finset.sdiff_subset_sdiff (le_refl _) (Finset.subset_insert _ _))]
      exact ⟨n, by simp [*], by simp⟩
    · apply Prod.Lex.right'
      · exact le_refl _
      · apply Prod.Lex.right'
        · exact le_refl _
        · (try simp only [List.length_cons]); omega
    · apply Prod.Lex.right'
      · exact le_refl _
      · apply Prod.Lex.left
        (try simp only [List.length_cons]); omega

/-- The root-seeding phase of breadth_first_search: add each unvisited root
to the visited set and queue and invoke the callback on it (honoring the
early stop), then enter the main loop. -/
def bfsSeed {S O : Type} [DecidableEq S] [Fintype S] (rg : RootedGraph S)
    (on_entry : S → O → Bool × O) :
    List S → List S → Finset S → O → O × Finset S
  | [], q, vis, userdata => bfsGo rg on_entry none q vis userdata
  | r :: rs, q, vis, userdata =>
      if r ∈ vis then bfsSeed rg on_entry rs q vis userdata
      else
        match on_entry r userdata with
        | (stop, userdata') =>
            if stop then (userdata', insert r vis)
            else bfsSeed rg on_entry rs (q ++ [r]) (insert r vis) userdata'

/-- breadth_first_search(rooted_graph, on_entry, userdata): BFS over a rooted
graph with an early-stopping observer callback; returns the user data and
the visited set. -/
def breadth_first_search {S O : Type} [DecidableEq S] [Fintype S]
    (rg : RootedGraph S) (on_entry : S → O → Bool × O) (userdata : O) :
    O × Finset S :=
  bfsSeed rg on_entry rg.roots [] ∅ userdata

/- ===================================================================
   common/languagesemantics.py and common/ls2rg.py.
   =================================================================== -/

/-- The abstract transition-system interface: initial states, enabled
actions, action execution. -/
structure LanguageSemantics (S A : Type) where
  initials : List S
  actions : S → List A
  execute : S → A → List S

/-- LS2RG.neighbors: all successor states of a state, obtained by executing
every enabled action. -/
def LS2RG.neighbors {S A : Type} (ls : LanguageSemantics S A) (s : S) :
    List S :=
  (ls.actions s).flatMap (fun a => ls.execute s a)

/-- LS2RG: a language semantics viewed as a rooted graph. -/
def LS2RG {S A : Type} (ls : LanguageSemantics S A) : RootedGraph S :=
  ⟨ls.initials, LS2RG.neighbors ls⟩

/- ===================================================================
   common/souplanguagesemantics.py and common/soup_example.py.
   =================================================================== -/

/-- A Piece: a named guarded rule with a pure effect. -/
structure Piece (S : Type) where
  name : String
  effect : S → S
  guard : S → Bool

/-- A Soup program: an ordered rule collection plus an initial state. -/
structure Soup (S : Type) where
  pieces : List (Piece S)
  init : S

/-- SoupLanguageSemantics.initials: the single initial state. -/
def SoupLanguageSemantics.initials {S : Type} (soup : Soup S) : List S :=
  [soup.init]

/-- SoupLanguageSemantics.actions: the pieces whose guard holds in the given
state, in rule-set order. -/
def SoupLanguageSemantics.actions {S : Type} (soup : Soup S) (state : S) :
    List (Piece S) :=
  soup.pieces.filter (fun piece => piece.guard state)

/-- SoupLanguageSemantics.execute: apply the chosen piece's effect, returning
a singleton successor list. -/
def SoupLanguageSemantics.execute {S : Type} (state : S) (action : Piece S) :
    List S :=
  [action.effect state]

/-- The assembled LanguageSemantics of a Soup program. -/
def SoupLanguageSemantics.toLS {S : Type} (soup : Soup S) :
    LanguageSemantics S (Piece S) :=
  ⟨SoupLanguageSemantics.initials soup,
   SoupLanguageSemantics.actions soup,
   fun state action => SoupLanguageSemantics.execute state action⟩

/-- Rule to1 of the binary clock: move to 1 when the state is 0. -/
def to1 : Piece Nat := ⟨"to1", fun _ => 1, fun c => c == 0⟩

/-- Rule to0 of the binary clock: move to 0 when the state is 1. -/
def to0 : Piece Nat := ⟨"to0", fun _ => 0, fun c => c == 1⟩

/-- The 2-state toggle Soup program clk1 with initial state 0. -/
def clk1 : Soup Nat := ⟨[to1, to0], 0⟩

/- ===================================================================
   common/isoup.py: ISoupSemantics.
   =================================================================== -/

/-- An iSoup property: a Buchi automaton wrapped for the transition-system
interface.  Fields model the _initial, _accepting and _transitions slots;
guards observe a system state together with a deadlock flag. -/
structure ISoupSemantics (S Q : Type) where
  initial : Q
  accepting : Finset Q
  transitions : Q → List ((S → Bool → Bool) × Q)

/-- ISoupSemantics.initials. -/
def ISoupSemantics.initialsList {S Q : Type} (p : ISoupSemantics S Q) :
    List Q :=
  [p.initial]

/-- ISoupSemantics.enabled_transitions: the registered transitions out of the
label whose guard is satisfied by the observed system state and deadlock
flag. -/
def ISoupSemantics.enabled_transitions {S Q : Type} (p : ISoupSemantics S Q)
    (prop_state : Q) (system_state : S) (is_deadlock : Bool) :
    List ((S → Bool → Bool) × Q) :=
  (p.transitions prop_state).filter (fun gt => gt.1 system_state is_deadlock)

/-- ISoupSemantics.is_accepting. -/
def ISoupSemantics.is_accepting {S Q : Type} [DecidableEq Q]
    (p : ISoupSemantics S Q) (prop_state : Q) : Bool :=
  decide (prop_state ∈ p.accepting)

/- ===================================================================
   common/step_sync_composition.py: StepSyncComposition.
   =================================================================== -/

/-- An action of the composition: either an action of the system or the
sentinel deadlock marker "__deadlock__". -/
inductive ComposedAction (A : Type) where
  | deadlock : ComposedAction A
  | sys : A → ComposedAction A
deriving DecidableEq

/-- StepSyncComposition.initials: for every system initial and every property
initial label, advance the property one observation step on the initial
system state (with its deadlock flag) and pair the system state with each
reached target label. -/
def StepSyncComposition.initials {S A Q : Type}
    (system : LanguageSemantics S A) (prop : ISoupSemantics S Q) :
    List (S × Q) :=
  system.initials.flatMap (fun sys_init =>
    (ISoupSemantics.initialsList prop).flatMap (fun prop_init =>
      (prop.enabled_transitions prop_init sys_init
          (system.actions sys_init).isEmpty).map
        (fun gt => (sys_init, gt.2))))

/-- StepSyncComposition.actions: the system actions when there are any,
otherwise the single sentinel deadlock action. -/
def StepSyncComposition.actions {S A Q : Type}
    (system : LanguageSemantics S A) (composed_state : S × Q) :
    List (ComposedAction A) :=
  if (system.actions composed_state.1).isEmpty then [ComposedAction.deadlock]
  else (system.actions composed_state.1).map ComposedAction.sys

/-- StepSyncComposition.execute: on the deadlock sentinel the system state is
left unchanged and the property observes it with the deadlock flag true; on
a system action every system successor is observed by the property with that
successor's own deadlock flag. -/
def StepSyncComposition.execute {S A Q : Type}
    (system : LanguageSemantics S A) (prop : ISoupSemantics S Q)
    (composed_state : S × Q) :
    ComposedAction A → List (S × Q)
  | ComposedAction.deadlock =>
      (prop.enabled_transitions composed_state.2 composed_state.1 true).map
        (fun gt => (composed_state.1, gt.2))
  | ComposedAction.sys a =>
      (system.execute composed_state.1 a).flatMap (fun next_sys =>
        (prop.enabled_transitions composed_state.2 next_sys
            (system.actions next_sys).isEmpty).map
          (fun gt => (next_sys, gt.2)))

/-- StepSyncComposition.is_accepting: acceptance of the property component. -/
def StepSyncComposition.is_accepting {S Q : Type} [DecidableEq Q]
    (prop : ISoupSemantics S Q) (composed_state : S × Q) : Bool :=
  ISoupSemantics.is_accepting prop composed_state.2

/-- All product successors of a composed state through the composition:
every action followed by execute. -/
def StepSyncComposition.successors {S A Q : Type}
    (system : LanguageSemantics S A) (prop : ISoupSemantics S Q)
    (composed_state : S × Q) : List (S × Q) :=
  (StepSyncComposition.actions system composed_state).flatMap
    (fun a => StepSyncComposition.execute system prop composed_state a)

/- ===================================================================
   common/buchi.py: BuchiAutomaton and verify_buchi.
   =================================================================== -/

/-- A Buchi automaton: state labels, an initial label, an accepting set, and
a transition map from labels to guarded target labels.  Guards observe a
system state and a deadlock flag.  The transition map is total, returning []
for unknown labels as transitions.get(q, []) does. -/
structure BuchiAutomaton (S Q : Type) where
  states : List Q
  initial : Q
  accepting : Finset Q
  transitions : Q → List ((S → Bool → Bool) × Q)

/-- product_successors of verify_buchi: when the system state has no enabled
action the property observes the unchanged state with the deadlock flag
true; otherwise every system successor is observed with the deadlock flag
false. -/
def product_successors {S A Q : Type} (ls : LanguageSemantics S A)
    (buchi : BuchiAutomaton S Q) (prod_state : S × Q) : List (S × Q) :=
  if (ls.actions prod_state.1).isEmpty then
    (buchi.transitions prod_state.2).filterMap (fun gt =>
      if gt.1 prod_state.1 true then some (prod_state.1, gt.2) else none)
  else
    (ls.actions prod_state.1).flatMap (fun action =>
      (ls.execute prod_state.1 action).flatMap (fun next_sys =>
        (buchi.transitions prod_state.2).filterMap (fun gt =>
          if gt.1 next_sys false then some (next_sys, gt.2) else none)))

/-- is_accepting of verify_buchi: the buchi component lies in the accepting
set. -/
def verify_is_accepting {S Q : Type} [DecidableEq Q]
    (buchi : BuchiAutomaton S Q) (prod_state : S × Q) : Bool :=
  decide (prod_state.2 ∈ buchi.accepting)

/-- The while-loop of build_path: walk the parent dictionary from the end
vertex, stopping at the start vertex (which is then included) or at a vertex
with no parent; the accumulator already holds the reversed path.  The fuel
is instantiated with the number of states; the invariants show the walk
reaches start first. -/
def build_path_go {V : Type} [DecidableEq V] (par : V → Option V) (start : V) :
    Nat → Option V → List V → List V
  | _, none, acc => acc
  | 0, some c, acc => if c = start then start :: acc else acc
  | n + 1, some c, acc =>
      if c = start then start :: acc
      else build_path_go par start n (par c) (c :: acc)

/-- build_path(parent_dict, start, end) of verify_buchi. -/
def build_path {V : Type} [DecidableEq V] [Fintype V] (par : V → Option V)
    (start finish : V) : List V :=
  build_path_go par start (Fintype.card V) (some finish) []

/-- The while-loop of inner_dfs: an explicit DFS stack of frames (state,
unexplored successors), a local visited set and a local parent dictionary.
A generated successor equal to the accepting state closes a cycle, which is
reconstructed from the parent chain and returned with the accepting state
appended. -/
def inner_dfs_go {V : Type} [DecidableEq V] [Fintype V]
    (get_successors : V → List V) (accepting_state : V) :
    List (V × List V) → Finset V → (V → Option V) → Option (List V)
  | [], _, _ => none
  | (c, x :: xs) :: rest, vis, par =>
      if x = accepting_state then
        some (build_path par accepting_state c ++ [accepting_state])
      else if x ∈ vis then
        inner_dfs_go get_successors accepting_state ((c, xs) :: rest) vis par
      else
        inner_dfs_go get_successors accepting_state
          ((x, get_successors x) :: (c, xs) :: rest) (insert x vis)
          (parUpdate par x c)
  | (_, []) :: rest, vis, par =>
      inner_dfs_go get_successors accepting_state rest vis par
  termination_by st vis _ => ((Finset.univ \ vis).card, stackWeight st)
  decreasing_by
    · apply Prod.Lex.right'
      · exact le_refl _
      · simp [stackWeight]
    · apply Prod.Lex.left
      apply Finset.card_lt_card
      rw [Finset.ssubset_iff_of_subset
        (Finset.sdiff_subset_sdiff (le_refl _) (Finset.subset_insert _ _))]
      exact ⟨x, by simp [*], by simp⟩
    · apply Prod.Lex.right'
      · exact le_refl _
      · simp [stackWeight]

/-- inner_dfs(accepting_state, get_successors): search for a path from the
accepting state back to itself; None when there is none. -/
def inner_dfs {V : Type} [DecidableEq V] [Fintype V]
    (get_successors : V → List V) (accepting_state : V) : Option (List V) :=
  inner_dfs_go get_successors accepting_state
    [(accepting_state, get_successors accepting_state)] {accepting_state}
    (fun _ => none)

/-- One outer-DFS run of nested_dfs, from the composed initial i0: frames
carry the unexplored successors; a state is recorded visited and given its
parent when first pushed.  At post-order of an accepting state the inner DFS
runs; on success the prefix is rebuilt from the outer parent dictionary and
the search aborts with the counter-example. -/
def outer_dfs_run {V : Type} [DecidableEq V] [Fintype V]
    (succs : V → List V) (isAcc : V → Bool) (i0 : V) :
    List (V × List V) → Finset V → (V → Option V) →
      Finset V × (V → Option V) × Option (List V × List V)
  | [], vis, par => (vis, par, none)
  | (c, x :: xs) :: rest, vis, par =>
      if x ∈ vis then
        outer_dfs_run succs isAcc i0 ((c, xs) :: rest) vis par
      else
        outer_dfs_run succs isAcc i0 ((x, succs x) :: (c, xs) :: rest)
          (insert x vis) (parUpdate par x c)
  | (c, []) :: rest, vis, par =>
      if isAcc c then
        match inner_dfs succs c with
        | some cycle => (vis, par, some (build_path par i0 c, cycle))
        | none => outer_dfs_run succs isAcc i0 rest vis par
      else outer_dfs_run succs isAcc i0 rest vis par
  termination_by st vis _ => ((Finset.univ \ vis).card, stackWeight st)
  decreasing_by
    · apply Prod.Lex.right'
      · exact le_refl _
      · simp [stackWeight]
    · apply Prod.Lex.left
      apply Finset.card_lt_card
      rw [Finset.ssubset_iff_of_subset
        (Finset.sdiff_subset_sdiff (le_refl _) (Finset.subset_insert _ _))]
      exact ⟨x, by simp [*], by simp⟩
    · apply Prod.Lex.right'
      · exact le_refl _
      · simp [stackWeight]
    · apply Prod.Lex.right'
      · exact le_refl _
      · simp [stackWeight]

/-- nested_dfs: iterate the outer DFS over the composed initial states
(system initial, initial buchi label), skipping already-visited ones,
accumulating the shared outer visited set and parent dictionary; the first
counter-example aborts the whole search, yielding the (satisfied,
counter_example) verdict of verify_buchi. -/
def nested_dfs {S A Q : Type} [DecidableEq S] [DecidableEq Q] [Fintype S]
    [Fintype Q] (ls : LanguageSemantics S A) (buchi : BuchiAutomaton S Q) :
    List S → Finset (S × Q) → (S × Q → Option (S × Q)) →
      Bool × Option (List (S × Q) × List (S × Q))
  | [], _, _ => (true, none)
  | init_sys :: rest, vis, par =>
      if (init_sys, buchi.initial) ∈ vis then nested_dfs ls buchi rest vis par
      else
        match outer_dfs_run (product_successors ls buchi)
            (verify_is_accepting buchi) (init_sys, buchi.initial)
            [((init_sys, buchi.initial),
              product_successors ls buchi (init_sys, buchi.initial))]
            (insert (init_sys, buchi.initial) vis) par with
        | (_, _, some ce) => (false, some ce)
        | (vis', par', none) => nested_dfs ls buchi rest vis' par'

/-- verify_buchi(ls, buchi): (satisfied, counter_example). -/
def verify_buchi {S A Q : Type} [DecidableEq S] [DecidableEq Q] [Fintype S]
    [Fintype Q] (ls : LanguageSemantics S A) (buchi : BuchiAutomaton S Q) :
    Bool × Option (List (S × Q) × List (S × Q)) :=
  nested_dfs ls buchi ls.initials ∅ (fun _ => none)

/-- The composed initial states explored by verify_buchi: each system
initial paired with the un-advanced initial buchi label. -/
def verifyInitials {S A Q : Type} (ls : LanguageSemantics S A)
    (buchi : BuchiAutomaton S Q) : List (S × Q) :=
  ls.initials.map (fun init_sys => (init_sys, buchi.initial))

/-- Reachability in the product explored by verify_buchi: reachable from a
composed initial state through product_successors. -/
def VReachable {S A Q : Type} (ls : LanguageSemantics S A)
    (buchi : BuchiAutomaton S Q) (p : S × Q) : Prop :=
  ∃ i ∈ verifyInitials ls buchi, ReachOf (product_successors ls buchi) i p

/-- A composed state is observer-justified when some automaton transition
targets its property label with a guard satisfied by its system state under
that state's own deadlock flag. -/
def ObserverJustified {S A Q : Type} (ls : LanguageSemantics S A)
    (trans : Q → List ((S → Bool → Bool) × Q)) (c : S × Q) : Prop :=
  ∃ p g, (g, c.2) ∈ trans p ∧ g c.1 (ls.actions c.1).isEmpty = true

/-- The ISoupSemantics carrying the same automaton data as a
BuchiAutomaton. -/
def buchiToISoup {S Q : Type} (b : BuchiAutomaton S Q) : ISoupSemantics S Q :=
  ⟨b.initial, b.accepting, b.transitions⟩

/- ===================================================================
   Python attribute protocol, for the verify_one call path of
   6-buchi-verification/verify_buchi.py.
   =================================================================== -/

/-- The data attributes set on a BuchiAutomaton instance by its
constructor. -/
def buchiAutomatonAttrs : List String :=
  ["states", "initial", "accepting", "transitions"]

/-- The data attributes set on an ISoupSemantics instance by its
constructor. -/
def isoupInstanceAttrs : List String :=
  ["_initial", "_accepting", "_transitions"]

/-- The methods of the ISoupSemantics class, found by attribute lookup on an
instance after its instance dictionary. -/
def isoupClassAttrs : List String :=
  ["initials", "actions", "execute", "is_accepting", "enabled_transitions"]

/-- The attributes verify_buchi reads from its property argument: initial,
accepting and transitions. -/
def verifyBuchiPropertyReads : List String :=
  ["initial", "accepting", "transitions"]

/-- Python attribute lookup: instance dictionary first, then the class. -/
def pyHasAttr (instanceAttrs classAttrs : List String) (a : String) : Bool :=
  instanceAttrs.contains a || classAttrs.contains a

/-- Whether a call of verify_buchi on an object with the given attributes
resolves all three property reads; when some read fails the call raises
AttributeError before producing any verdict. -/
def verifyBuchiAttrsResolve (instanceAttrs classAttrs : List String) : Bool :=
  verifyBuchiPropertyReads.all (pyHasAttr instanceAttrs classAttrs)

/- ===================================================================
   Concrete instances used as witnesses and counterexamples.
   =================================================================== -/

/-- The fixed test graph of 1-bfs/bfs.py: 0 has successors 1 and 2, both 1
and 2 have successor 3, and 3 has none. -/
def testGraph : Fin 4 → List (Fin 4)
  | 0 => [1, 2]
  | 1 => [3]
  | 2 => [3]
  | 3 => []

/-- A two-state toggle system over Bool: a single anonymous action flips the
state; the initial state is false. -/
def toggleLS : LanguageSemantics Bool Unit :=
  ⟨[false], fun _ => [()], fun s _ => [!s]⟩

/-- A system that deadlocks after one step: false steps to true, which has
no enabled action. -/
def deadLS : LanguageSemantics Bool Unit :=
  ⟨[false], fun s => if s then [] else [()], fun _ _ => [true]⟩

/-- A property automaton with a single always-accepting label that always
self-loops: every infinite run is accepted. -/
def alwaysBA : BuchiAutomaton Bool Bool :=
  ⟨[false], false, {false}, fun _ => [(fun _ _ => true, false)]⟩

/-- A deadlock-detecting property automaton: stay in the initial label false
while the system is live, move to the accepting trap label true on
deadlock. -/
def deadlockBA : BuchiAutomaton Bool Bool :=
  ⟨[false, true], false, {true},
   fun _ => [(fun _ d => !d, false), (fun _ d => d, true)]⟩

/-- A property automaton whose initial label nondeterministically stays or
advances on any observation. -/
def branchBA : BuchiAutomaton Bool Bool :=
  ⟨[false, true], false, {true},
   fun _ => [(fun _ _ => true, false), (fun _ _ => true, true)]⟩

/-- A property automaton whose initial label true is the target of no
transition at all. -/
def orphanInitBA : BuchiAutomaton Bool Bool :=
  ⟨[false, true], true, ∅, fun _ => [(fun _ _ => true, false)]⟩

/- ===================================================================
   Loop invariants for the searches (proof-side definitions).
   =================================================================== -/

/-- Invariant of the inner-DFS loop searching for a cycle through the
accepting state a: every frame holds a visited state with its still-pending
successors drawn from its successor list; consumed successors are visited
and differ from a; states off the stack are fully processed; the local
parent dictionary records tree edges whose walks lead back to a. -/
structure InnerInv {V : Type} [DecidableEq V] [Fintype V] (succs : V → List V)
    (a : V) (st : List (V × List V)) (vis : Finset V) (par : V → Option V) :
    Prop where
  root_mem : a ∈ vis
  root_par : par a = none
  frame_mem : ∀ e ∈ st, e.1 ∈ vis
  frame_pending : ∀ e ∈ st, ∀ x ∈ e.2, x ∈ succs e.1
  frame_handled : ∀ e ∈ st, ∀ x ∈ succs e.1, x ∈ e.2 ∨ (x ≠ a ∧ x ∈ vis)
  off_stack_closed :
    ∀ v ∈ vis, v ∉ st.map Prod.fst → ∀ x ∈ succs v, x ≠ a ∧ x ∈ vis
  par_edge : ∀ x c, par x = some c → EdgeFn succs c x
  chains : ∀ v ∈ vis, ∃ l, ParChainTo par v l a ∧ l.Nodup ∧ ∀ y ∈ l, y ∈ vis

/-- Invariant of one outer-DFS run shared across its frames: frames hold
visited states with pending successor lists; states off the stack are fully
expanded and, when accepting, have already been inner-searched without
finding a cycle. -/
structure OuterInv {V : Type} [DecidableEq V] [Fintype V] (succs : V → List V)
    (isAcc : V → Bool) (st : List (V × List V)) (vis : Finset V) : Prop where
  frame_mem : ∀ e ∈ st, e.1 ∈ vis
  frame_pending : ∀ e ∈ st, ∀ x ∈ e.2, x ∈ succs e.1
  frame_handled : ∀ e ∈ st, ∀ x ∈ succs e.1, x ∈ e.2 ∨ x ∈ vis
  off_stack_closed : ∀ v ∈ vis, v ∉ st.map Prod.fst → ∀ x ∈ succs v, x ∈ vis
  off_stack_acc : ∀ v ∈ vis, v ∉ st.map Prod.fst → isAcc v = true →
    inner_dfs succs v = none

/-- Run-local parent and reachability invariant of the outer DFS: the states
discovered during the current run (those outside vis0) have parent walks
leading back to the run's composed initial i0, the global parent dictionary
only records product edges between visited states, and every visited state
is reachable from some composed initial in inits. -/
structure RunInv {V : Type} [DecidableEq V] [Fintype V] (succs : V → List V)
    (inits : List V) (i0 : V) (vis0 vis : Finset V) (st : List (V × List V))
    (par : V → Option V) : Prop where
  i0_mem : i0 ∈ vis
  i0_new : i0 ∉ vis0
  vis0_sub : vis0 ⊆ vis
  stack_new : ∀ x ∈ st.map Prod.fst, x ∉ vis0
  par_ok : ∀ x c, par x = some c → EdgeFn succs c x ∧ x ∈ vis
  run_chains : ∀ v ∈ vis, v ∉ vis0 →
    ∃ l, ParChainTo par v l i0 ∧ l.Nodup ∧ ∀ y ∈ l, y ∈ vis ∧ y ∉ vis0
  i0_init : i0 ∈ inits
  reach : ∀ v ∈ vis, ∃ i ∈ inits, ReachOf succs i v

/-- The state currently being expanded together with the pending queue. -/
def activeList {S : Type} (scan : Option (S × List S)) (q : List S) : List S :=
  match scan with
  | none => q
  | some e => e.1 :: q

/-- Invariant of the BFS.explore loop.  D is a ghost assignment of discovery
depths, proc the set of fully processed states.  The queue (with the state
being scanned in front) is sorted by depth and spans at most two consecutive
depths; processed states precede it and have all successors discovered
within one extra depth; the parent association list has exactly the visited
states as keys, each recorded edge increasing the depth by one. -/
structure ExploreInv {S : Type} [DecidableEq S] [Fintype S] (f : S → List S)
    (start : S) (D : S → Nat) (proc : Finset S) (scan : Option (S × List S))
    (q : List S) (d : BFSData S) : Prop where
  start_mem : start ∈ d.visited
  start_depth : D start = 0
  vis_split : proc ∪ (activeList scan q).toFinset = d.visited
  disj : Disjoint proc (activeList scan q).toFinset
  active_nodup : (activeList scan q).Nodup
  par_keys_nodup : (d.parent.map Prod.fst).Nodup
  par_keys : ∀ s, s ∈ d.parent.map Prod.fst ↔ s ∈ d.visited
  par_start : parLookup d.parent start = none
  par_some : ∀ s p, parLookup d.parent s = some p →
    p ∈ d.visited ∧ s ∈ d.visited ∧ EdgeFn f p s ∧ D s = D p + 1
  par_total : ∀ v ∈ d.visited, v ≠ start → ∃ p, parLookup d.parent v = some p
  sorted : List.Sorted (fun m n => m ≤ n) ((activeList scan q).map D)
  spread : ∀ u ∈ activeList scan q, ∀ w ∈ activeList scan q, D w ≤ D u + 1
  proc_before : ∀ p ∈ proc, ∀ u ∈ activeList scan q, D p ≤ D u
  proc_closed : ∀ p ∈ proc, ∀ x ∈ f p, x ∈ d.visited ∧ D x ≤ D p + 1
  scan_pending : ∀ c rem, scan = some (c, rem) → ∀ x ∈ rem, x ∈ f c
  scan_handled : ∀ c rem, scan = some (c, rem) →
    ∀ x ∈ f c, x ∈ rem ∨ (x ∈ d.visited ∧ D x ≤ D c + 1)
  reach : ∀ v ∈ d.visited, ReachOf f start v

/-- Invariant of the breadth_first_search main loop: active states are
visited, the scanned state's already-consumed neighbors are visited, fully
processed states have all neighbors visited, and every visited state is
reachable from a root. -/
structure BfsInv {S : Type} (nb : S → List S) (roots : List S)
    (scan : Option (S × List S)) (q : List S) (vis : Finset S) : Prop where
  active_mem : ∀ x ∈ activeList scan q, x ∈ vis
  scan_pending : ∀ c rem, scan = some (c, rem) → ∀ x ∈ rem, x ∈ nb c
  scan_handled : ∀ c rem, scan = some (c, rem) → ∀ x ∈ nb c, x ∈ rem ∨ x ∈ vis
  off_closed : ∀ v ∈ vis, v ∉ activeList scan q → ∀ x ∈ nb v, x ∈ vis
  reach : ∀ v ∈ vis, ∃ r ∈ roots, ReachOf nb r v

/- ===================================================================
   Generic lemmas: parent walks, path reconstruction, closures.
   =================================================================== -/

theorem par_chain_last_none {V : Type} {par : V → Option V} {v r : V}
    {l : List V} (h : ParChainTo par v l r) : par r = none := by
  induction h with
  | nil r hr => exact hr
  | cons v p l r hv hc ih => exact ih

theorem par_chain_head {V : Type} {par : V → Option V} {v r : V} {l : List V}
    (h : ParChainTo par v l r) : l.head? = some v := by
  cases h with
  | nil r hr => rfl
  | cons v p l r hv hc => rfl

theorem par_chain_ne_nil {V : Type} {par : V → Option V} {v r : V}
    {l : List V} (h : ParChainTo par v l r) : l ≠ [] := by
  cases h with
  | nil r hr => simp
  | cons v p l r hv hc => simp

theorem par_chain_getLast {V : Type} {par : V → Option V} {v r : V}
    {l : List V} (h : ParChainTo par v l r) : l.getLast? = some r := by
  induction h with
  | nil r hr => rfl
  | cons v p l r hv hc ih =>
      rw [List.getLast?_cons, ih]
      cases hl : l with
      | nil => exact absurd hl (par_chain_ne_nil hc)
      | cons a t => simp

theorem par_chain_mem_self {V : Type} {par : V → Option V} {v r : V}
    {l : List V} (h : ParChainTo par v l r) : v ∈ l := by
  cases h with
  | nil r hr => simp
  | cons v p l r hv hc => simp

theorem par_chain_update {V : Type} [DecidableEq V] {par : V → Option V}
    {v r x c : V} {l : List V} (h : ParChainTo par v l r)
    (hx : ∀ y ∈ l, y ≠ x) : ParChainTo (parUpdate par x c) v l r := by
  induction h with
  | nil r hr =>
      refine ParChainTo.nil r ?_
      simp only [parUpdate, if_neg (hx r (by simp))]
      exact hr
  | cons v p l r hv hc ih =>
      refine ParChainTo.cons v p l r ?_ ?_
      · simp only [parUpdate, if_neg (hx v (by simp))]
        exact hv
      · exact ih (fun y hy => hx y (by simp [hy]))

theorem par_chain_reverse_chain' {V : Type} {succs : V → List V}
    {par : V → Option V} {v r : V} {l : List V}
    (hpar : ∀ x c, par x = some c → EdgeFn succs c x)
    (h : ParChainTo par v l r) : l.reverse.Chain' (EdgeFn succs) := by
  induction h with
  | nil r hr => simp
  | cons v p l r hv hc ih =>
      simp only [List.reverse_cons]
      refine List.Chain'.append ih (by simp) ?_
      intro x hx y hy
      rw [List.getLast?_reverse, par_chain_head hc] at hx
      cases hx
      cases hy
      exact hpar v p hv

theorem build_path_go_of_chain {V : Type} [DecidableEq V] {par : V → Option V}
    {v r : V} {l : List V} (h : ParChainTo par v l r) :
    ∀ fuel acc, l.length ≤ fuel + 1 →
      build_path_go par r fuel (some v) acc = l.reverse ++ acc := by
  induction h with
  | nil r hr =>
      intro fuel acc hfuel
      cases fuel with
      | zero => simp [build_path_go]
      | succ n => simp [build_path_go]
  | cons v p l r hv hc ih =>
      intro fuel acc hfuel
      have hvr : v ≠ r := by
        intro he
        rw [he, par_chain_last_none hc] at hv
        cases hv
      have hlen : 1 ≤ l.length := by
        cases hl : l with
        | nil => exact absurd hl (par_chain_ne_nil hc)
        | cons a t => simp
      cases fuel with
      | zero => simp only [List.length_cons] at hfuel; omega
      | succ n =>
          simp only [build_path_go, if_neg hvr, hv]
          rw [ih n (v :: acc) (by simp only [List.length_cons] at hfuel; omega)]
          simp

theorem build_path_of_chain {V : Type} [DecidableEq V] [Fintype V]
    {par : V → Option V} {v r : V} {l : List V} (h : ParChainTo par v l r)
    (hnd : l.Nodup) : build_path par r v = l.reverse := by
  have hle : l.length ≤ Fintype.card V := hnd.length_le_card
  have := build_path_go_of_chain h (Fintype.card V) [] (le_trans hle (Nat.le_succ _))
  simpa [build_path] using this

theorem reach_mem_of_closed {V : Type} {succs : V → List V} {vis : Finset V}
    (hcl : ∀ v ∈ vis, ∀ x ∈ succs v, x ∈ vis) {u w : V} (hu : u ∈ vis)
    (h : ReachOf succs u w) : w ∈ vis := by
  induction h with
  | refl => exact hu
  | tail hs he ih => exact hcl _ ih _ he

theorem no_selfcycle_of_closed {V : Type} {succs : V → List V}
    {vis : Finset V} {a : V} (ha : a ∈ vis)
    (hcl : ∀ v ∈ vis, ∀ x ∈ succs v, x ≠ a ∧ x ∈ vis) :
    ¬ Relation.TransGen (EdgeFn succs) a a := by
  intro h
  obtain ⟨b, hab, hba⟩ := Relation.TransGen.tail'_iff.mp h
  have hb : b ∈ vis :=
    reach_mem_of_closed (fun v hv x hx => (hcl v hv x hx).2) ha hab
  exact (hcl b hb a hba).1 rfl

theorem chain'_getLast_reach {V : Type} {succs : V → List V} {u : V}
    {l : List V} (hc : (u :: l).Chain' (EdgeFn succs)) {w : V}
    (hw : (u :: l).getLast? = some w) : ReachOf succs u w := by
  induction l generalizing u with
  | nil =>
      simp at hw
      cases hw
      exact Relation.ReflTransGen.refl
  | cons y t ih =>
      rw [List.chain'_cons] at hc
      have := ih hc.2 (by simpa using hw)
      exact Relation.ReflTransGen.head hc.1 this

theorem transGen_of_lasso {V : Type} {succs : V → List V} {a : V}
    {l : List V} (h2 : 2 ≤ l.length) (hh : l.head? = some a)
    (hl : l.getLast? = some a) (hc : l.Chain' (EdgeFn succs)) :
    Relation.TransGen (EdgeFn succs) a a := by
  cases l with
  | nil => cases hh
  | cons x t =>
      cases hh
      cases t with
      | nil => simp at h2
      | cons y u =>
          rw [List.chain'_cons] at hc
          exact Relation.TransGen.head' hc.1
            (chain'_getLast_reach hc.2 (by simpa using hl))

/- ===================================================================
   Correctness of inner_dfs.
   =================================================================== -/

theorem inner_dfs_go_spec {V : Type} [DecidableEq V] [Fintype V]
    (succs : V → List V) (a : V) :
    ∀ st vis par, InnerInv succs a st vis par →
      (inner_dfs_go succs a st vis par = none →
        ∃ vis' : Finset V, a ∈ vis' ∧
          ∀ v ∈ vis', ∀ x ∈ succs v, x ≠ a ∧ x ∈ vis') ∧
      (∀ cyc, inner_dfs_go succs a st vis par = some cyc →
        cyc.head? = some a ∧ cyc.getLast? = some a ∧ 2 ≤ cyc.length ∧
        cyc.Chain' (EdgeFn succs)) := by
  intro st vis par
  induction st, vis, par using inner_dfs_go.induct succs a with
  | case1 vis par =>
      intro hinv
      have heq : inner_dfs_go succs a [] vis par = none := by
        rw [inner_dfs_go]
      rw [heq]
      constructor
      · intro _
        exact ⟨vis, hinv.root_mem, fun v hv x hx =>
          hinv.off_stack_closed v hv (by simp) x hx⟩
      · intro cyc hcyc
        cases hcyc
  | case2 c xs rest vis par =>
      intro hinv
      have heq : inner_dfs_go succs a ((c, a :: xs) :: rest) vis par =
          some (build_path par a c ++ [a]) := by
        rw [inner_dfs_go]
        simp
      rw [heq]
      have hc : c ∈ vis := hinv.frame_mem (c, a :: xs) (by simp)
      have hxc : a ∈ succs c :=
        hinv.frame_pending (c, a :: xs) (by simp) a (by simp)
      obtain ⟨l, hchain, hnd, hmem⟩ := hinv.chains c hc
      constructor
      · intro hnone
        cases hnone
      · intro cyc hcyc
        have hbp : build_path par a c = l.reverse := build_path_of_chain hchain hnd
        injection hcyc with hcyc
        subst hcyc
        rw [hbp]
        have hlrev : l.reverse.head? = some a := by
          rw [List.head?_reverse, par_chain_getLast hchain]
        have hlne : l.reverse ≠ [] := by
          intro hnil
          exact par_chain_ne_nil hchain (by simpa using hnil)
        refine ⟨?_, ?_, ?_, ?_⟩
        · rw [List.head?_append_of_ne_nil _ hlne]
          exact hlrev
        · simp
        · have : 1 ≤ l.length := Nat.one_le_iff_ne_zero.mpr
            (fun h0 => par_chain_ne_nil hchain (List.length_eq_zero.mp h0))
          simp only [List.length_append, List.length_reverse, List.length_cons,
            List.length_nil]
          omega
        · refine List.Chain'.append (par_chain_reverse_chain' hinv.par_edge hchain)
            (by simp) ?_
          intro u hu y hy
          rw [List.getLast?_reverse, par_chain_head hchain] at hu
          cases hu
          cases hy
          exact hxc
  | case3 c x xs rest vis par hx hvis ih =>
      intro hinv
      have heq : inner_dfs_go succs a ((c, x :: xs) :: rest) vis par =
          inner_dfs_go succs a ((c, xs) :: rest) vis par := by
        rw [inner_dfs_go]
        simp [hx, hvis]
      rw [heq]
      refine ih ⟨hinv.root_mem, hinv.root_par, ?_, ?_, ?_, ?_, hinv.par_edge,
        hinv.chains⟩
      · intro e he
        rcases List.mem_cons.mp he with he | he
        · subst he; exact hinv.frame_mem (c, x :: xs) (by simp)
        · exact hinv.frame_mem e (by simp [he])
      · intro e he y hy
        rcases List.mem_cons.mp he with he | he
        · subst he
          exact hinv.frame_pending (c, x :: xs) (by simp) y (by simp [hy])
        · exact hinv.frame_pending e (by simp [he]) y hy
      · intro e he y hy
        rcases List.mem_cons.mp he with he | he
        · subst he
          rcases hinv.frame_handled (c, x :: xs) (by simp) y hy with hp | hp
          · rcases List.mem_cons.mp hp with hp | hp
            · subst hp; exact Or.inr ⟨hx, hvis⟩
            · exact Or.inl hp
          · exact Or.inr hp
        · exact hinv.frame_handled e (by simp [he]) y hy
      · intro v hv hst y hy
        refine hinv.off_stack_closed v hv ?_ y hy
        simpa using hst
  | case4 c x xs rest vis par hx hvis ih =>
      intro hinv
      have heq : inner_dfs_go succs a ((c, x :: xs) :: rest) vis par =
          inner_dfs_go succs a ((x, succs x) :: (c, xs) :: rest) (insert x vis)
            (parUpdate par x c) := by
        rw [inner_dfs_go]
        simp [hx, hvis]
      rw [heq]
      have hxc : x ∈ succs c :=
        hinv.frame_pending (c, x :: xs) (by simp) x (by simp)
      have hxa : x ≠ a := hx
      have hane : a ≠ x := fun h => hvis (h ▸ hinv.root_mem)
      refine ih ⟨?_, ?_, ?_, ?_, ?_, ?_, ?_, ?_⟩
      · exact Finset.mem_insert_of_mem hinv.root_mem
      · simp only [parUpdate, if_neg hane]
        exact hinv.root_par
      · intro e he
        rcases List.mem_cons.mp he with he | he
        · subst he; exact Finset.mem_insert_self _ _
        rcases List.mem_cons.mp he with he | he
        · subst he
          exact Finset.mem_insert_of_mem (hinv.frame_mem (c, x :: xs) (by simp))
        · exact Finset.mem_insert_of_mem (hinv.frame_mem e (by simp [he]))
      · intro e he y hy
        rcases List.mem_cons.mp he with he | he
        · subst he; exact hy
        rcases List.mem_cons.mp he with he | he
        · subst he
          exact hinv.frame_pending (c, x :: xs) (by simp) y (by simp [hy])
        · exact hinv.frame_pending e (by simp [he]) y hy
      · intro e he y hy
        rcases List.mem_cons.mp he with he | he
        · subst he; exact Or.inl hy
        rcases List.mem_cons.mp he with he | he
        · subst he
          rcases hinv.frame_handled (c, x :: xs) (by simp) y hy with hp | hp
          · rcases List.mem_cons.mp hp with hp | hp
            · subst hp
              exact Or.inr ⟨hxa, Finset.mem_insert_self _ _⟩
            · exact Or.inl hp
          · exact Or.inr ⟨hp.1, Finset.mem_insert_of_mem hp.2⟩
        · rcases hinv.frame_handled e (by simp [he]) y hy with hp | hp
          · exact Or.inl hp
          · exact Or.inr ⟨hp.1, Finset.mem_insert_of_mem hp.2⟩
      · intro v hv hst y hy
        rcases Finset.mem_insert.mp hv with hv | hv
        · exact absurd (by simp [hv]) hst
        · have hvnot : v ∉ ((c, x :: xs) :: rest).map Prod.fst := by
            intro hmem
            simp only [List.map_cons, List.mem_cons] at hmem hst
            rcases hmem with hmem | hmem
            · exact hst (Or.inr (Or.inl hmem))
            · exact hst (Or.inr (Or.inr (by simpa using hmem)))
          have := hinv.off_stack_closed v hv hvnot y hy
          exact ⟨this.1, Finset.mem_insert_of_mem this.2⟩
      · intro t c' hc'
        by_cases ht : t = x
        · subst ht
          simp only [parUpdate, if_pos rfl] at hc'
          injection hc' with hc'
          subst hc'
          exact hxc
        · simp only [parUpdate, if_neg ht] at hc'
          exact hinv.par_edge t c' hc'
      · intro v hv
        rcases Finset.mem_insert.mp hv with hv | hv
        · subst hv
          obtain ⟨l, hchain, hnd, hmem⟩ :=
            hinv.chains c (hinv.frame_mem (c, v :: xs) (by simp))
          have hnx : ∀ y ∈ l, y ≠ v := fun y hy hyv =>
            hvis (hyv ▸ hmem y hy)
          refine ⟨v :: l, ParChainTo.cons v c l a ?_ ?_, ?_, ?_⟩
          · simp [parUpdate]
          · exact par_chain_update hchain hnx
          · exact List.nodup_cons.mpr ⟨fun hvl => (hnx v hvl) rfl, hnd⟩
          · intro y hy
            rcases List.mem_cons.mp hy with hy | hy
            · subst hy; exact Finset.mem_insert_self _ _
            · exact Finset.mem_insert_of_mem (hmem y hy)
        · obtain ⟨l, hchain, hnd, hmem⟩ := hinv.chains v hv
          have hnx : ∀ y ∈ l, y ≠ x := fun y hy hyx => hvis (hyx ▸ hmem y hy)
          exact ⟨l, par_chain_update hchain hnx, hnd,
            fun y hy => Finset.mem_insert_of_mem (hmem y hy)⟩
  | case5 c rest vis par ih =>
      intro hinv
      have heq : inner_dfs_go succs a ((c, []) :: rest) vis par =
          inner_dfs_go succs a rest vis par := by
        rw [inner_dfs_go]
      rw [heq]
      refine ih ⟨hinv.root_mem, hinv.root_par, ?_, ?_, ?_, ?_, hinv.par_edge,
        hinv.chains⟩
      · exact fun e he => hinv.frame_mem e (by simp [he])
      · exact fun e he => hinv.frame_pending e (by simp [he])
      · exact fun e he => hinv.frame_handled e (by simp [he])
      · intro v hv hst y hy
        by_cases hvc : v = c
        · subst hvc
          rcases hinv.frame_handled (v, []) (by simp) y hy with hp | hp
          · cases hp
          · exact hp
        · exact hinv.off_stack_closed v hv (by simp [hst, hvc]) y hy

theorem inner_seed_inv {V : Type} [DecidableEq V] [Fintype V]
    (succs : V → List V) (a : V) :
    InnerInv succs a [(a, succs a)] {a} (fun _ => none) := by
  refine ⟨by simp, rfl, ?_, ?_, ?_, ?_, ?_, ?_⟩
  · intro e he
    simp at he
    simp [he]
  · intro e he y hy
    simp at he
    subst he
    exact hy
  · intro e he y hy
    simp at he
    subst he
    exact Or.inl hy
  · intro v hv hst
    simp at hv
    simp [hv] at hst
  · intro x c hc
    cases hc
  · intro v hv
    simp at hv
    subst hv
    exact ⟨[v], ParChainTo.nil v rfl, by simp, by simp⟩

theorem inner_dfs_none_iff {V : Type} [DecidableEq V] [Fintype V]
    (succs : V → List V) (a : V) :
    inner_dfs succs a = none ↔
      ¬ Relation.TransGen (EdgeFn succs) a a := by
  have hspec := inner_dfs_go_spec succs a [(a, succs a)] {a} (fun _ => none)
    (inner_seed_inv succs a)
  constructor
  · intro hnone
    obtain ⟨vis', ha, hcl⟩ := hspec.1 hnone
    exact no_selfcycle_of_closed ha hcl
  · intro hnc
    cases hres : inner_dfs succs a with
    | none => rfl
    | some cyc =>
        obtain ⟨hh, hl, h2, hc⟩ := hspec.2 cyc hres
        exact absurd (transGen_of_lasso h2 hh hl hc) hnc

theorem inner_dfs_some_shape {V : Type} [DecidableEq V] [Fintype V]
    (succs : V → List V) (a : V) (cyc : List V)
    (h : inner_dfs succs a = some cyc) :
    cyc.head? = some a ∧ cyc.getLast? = some a ∧ 2 ≤ cyc.length ∧
      cyc.Chain' (EdgeFn succs) :=
  (inner_dfs_go_spec succs a [(a, succs a)] {a} (fun _ => none)
    (inner_seed_inv succs a)).2 cyc h

/- ===================================================================
   Correctness of the outer DFS run and nested_dfs.
   =================================================================== -/

theorem outer_dfs_run_spec {V : Type} [DecidableEq V] [Fintype V]
    (succs : V → List V) (isAcc : V → Bool) (inits : List V) (i0 : V)
    (vis0 : Finset V) :
    ∀ st vis par, OuterInv succs isAcc st vis →
      RunInv succs inits i0 vis0 vis st par →
      ∀ vis' par' res, outer_dfs_run succs isAcc i0 st vis par = (vis', par', res) →
        vis ⊆ vis' ∧
        (∀ x c, par' x = some c → EdgeFn succs c x ∧ x ∈ vis') ∧
        (∀ v ∈ vis', ∃ i ∈ inits, ReachOf succs i v) ∧
        (res = none → OuterInv succs isAcc [] vis') ∧
        (∀ pref cyc, res = some (pref, cyc) →
          ∃ c, c ∈ vis' ∧ isAcc c = true ∧ inner_dfs succs c = some cyc ∧
            pref.head? = some i0 ∧ pref.getLast? = some c ∧
            pref.Chain' (EdgeFn succs)) := by
  intro st vis par
  induction st, vis, par using outer_dfs_run.induct succs isAcc i0 with
  | case1 vis par =>
      intro hinv hrun vis' par' res heq
      rw [outer_dfs_run] at heq
      injection heq with h1 heq
      injection heq with h2 h3
      subst h1; subst h2; subst h3
      refine ⟨le_refl _, fun x c hc => hrun.par_ok x c hc, hrun.reach, ?_, ?_⟩
      · intro _
        exact ⟨fun e he => absurd he (by simp),
          fun e he => absurd he (by simp),
          fun e he => absurd he (by simp),
          fun v hv _ => hinv.off_stack_closed v hv (by simp),
          fun v hv _ => hinv.off_stack_acc v hv (by simp)⟩
      · intro pref cyc hres
        cases hres
  | case2 c x xs rest vis par hxv ih =>
      intro hinv hrun vis' par' res heq
      rw [outer_dfs_run] at heq
      simp only [if_pos hxv] at heq
      refine ih ?_ ?_ vis' par' res heq
      · refine ⟨?_, ?_, ?_, hinv.off_stack_closed, hinv.off_stack_acc⟩
        · intro e he
          rcases List.mem_cons.mp he with he | he
          · subst he; exact hinv.frame_mem (c, x :: xs) (by simp)
          · exact hinv.frame_mem e (by simp [he])
        · intro e he y hy
          rcases List.mem_cons.mp he with he | he
          · subst he
            exact hinv.frame_pending (c, x :: xs) (by simp) y (by simp [hy])
          · exact hinv.frame_pending e (by simp [he]) y hy
        · intro e he y hy
          rcases List.mem_cons.mp he with he | he
          · subst he
            rcases hinv.frame_handled (c, x :: xs) (by simp) y hy with hp | hp
            · rcases List.mem_cons.mp hp with hp | hp
              · subst hp; exact Or.inr hxv
              · exact Or.inl hp
            · exact Or.inr hp
          · exact hinv.frame_handled e (by simp [he]) y hy
      · exact ⟨hrun.i0_mem, hrun.i0_new, hrun.vis0_sub, hrun.stack_new,
          hrun.par_ok, hrun.run_chains, hrun.i0_init, hrun.reach⟩
  | case3 c x xs rest vis par hxv ih =>
      intro hinv hrun vis' par' res heq
      rw [outer_dfs_run] at heq
      simp only [if_neg hxv] at heq
      have hcv : c ∈ vis := hinv.frame_mem (c, x :: xs) (by simp)
      have hxc : x ∈ succs c :=
        hinv.frame_pending (c, x :: xs) (by simp) x (by simp)
      have hcnew : c ∉ vis0 := hrun.stack_new c (by simp)
      have hmain := ih ?_ ?_ vis' par' res heq
      · exact ⟨le_trans (Finset.subset_insert _ _) hmain.1, hmain.2.1,
          hmain.2.2.1, hmain.2.2.2.1, hmain.2.2.2.2⟩
      · refine ⟨?_, ?_, ?_, ?_, ?_⟩
        · intro e he
          rcases List.mem_cons.mp he with he | he
          · subst he; exact Finset.mem_insert_self _ _
          rcases List.mem_cons.mp he with he | he
          · subst he
            exact Finset.mem_insert_of_mem (hinv.frame_mem (c, x :: xs) (by simp))
          · exact Finset.mem_insert_of_mem (hinv.frame_mem e (by simp [he]))
        · intro e he y hy
          rcases List.mem_cons.mp he with he | he
          · subst he; exact hy
          rcases List.mem_cons.mp he with he | he
          · subst he
            exact hinv.frame_pending (c, x :: xs) (by simp) y (by simp [hy])
          · exact hinv.frame_pending e (by simp [he]) y hy
        · intro e he y hy
          rcases List.mem_cons.mp he with he | he
          · subst he; exact Or.inl hy
          rcases List.mem_cons.mp he with he | he
          · subst he
            rcases hinv.frame_handled (c, x :: xs) (by simp) y hy with hp | hp
            · rcases List.mem_cons.mp hp with hp | hp
              · subst hp; exact Or.inr (Finset.mem_insert_self _ _)
              · exact Or.inl hp
            · exact Or.inr (Finset.mem_insert_of_mem hp)
          · rcases hinv.frame_handled e (by simp [he]) y hy with hp | hp
            · exact Or.inl hp
            · exact Or.inr (Finset.mem_insert_of_mem hp)
        · intro v hv hst y hy
          rcases Finset.mem_insert.mp hv with hv | hv
          · exact absurd (by simp [hv]) hst
          · have hvnot : v ∉ ((c, x :: xs) :: rest).map Prod.fst := by
              intro hmem
              simp only [List.map_cons, List.mem_cons] at hmem hst
              rcases hmem with hmem | hmem
              · exact hst (Or.inr (Or.inl hmem))
              · exact hst (Or.inr (Or.inr (by simpa using hmem)))
            exact Finset.mem_insert_of_mem
              (hinv.off_stack_closed v hv hvnot y hy)
        · intro v hv hst
          rcases Finset.mem_insert.mp hv with hv | hv
          · exact absurd (by simp [hv]) hst
          · have hvnot : v ∉ ((c, x :: xs) :: rest).map Prod.fst := by
              intro hmem
              simp only [List.map_cons, List.mem_cons] at hmem hst
              rcases hmem with hmem | hmem
              · exact hst (Or.inr (Or.inl hmem))
              · exact hst (Or.inr (Or.inr (by simpa using hmem)))
            exact hinv.off_stack_acc v hv hvnot
      · refine ⟨Finset.mem_insert_of_mem hrun.i0_mem, hrun.i0_new,
          le_trans hrun.vis0_sub (Finset.subset_insert _ _), ?_, ?_, ?_,
          hrun.i0_init, ?_⟩
        · intro y hy
          simp only [List.map_cons, List.mem_cons] at hy
          rcases hy with hy | hy | hy
          · rw [hy]; exact fun h0 => hxv (hrun.vis0_sub h0)
          · rw [hy]; exact hrun.stack_new c (by simp)
          · exact hrun.stack_new y (by simp [hy])
        · intro t c' hc'
          by_cases ht : t = x
          · subst ht
            simp only [parUpdate, if_pos rfl] at hc'
            injection hc' with hc'
            subst hc'
            exact ⟨hxc, Finset.mem_insert_self _ _⟩
          · simp only [parUpdate, if_neg ht] at hc'
            obtain ⟨he, hm⟩ := hrun.par_ok t c' hc'
            exact ⟨he, Finset.mem_insert_of_mem hm⟩
        · intro v hv hvnew
          rcases Finset.mem_insert.mp hv with hv | hv
          · subst hv
            obtain ⟨l, hchain, hnd, hmem⟩ := hrun.run_chains c hcv hcnew
            have hnx : ∀ y ∈ l, y ≠ v := fun y hy hyv =>
              hxv (hyv ▸ (hmem y hy).1)
            refine ⟨v :: l, ParChainTo.cons v c l i0 ?_ ?_, ?_, ?_⟩
            · simp [parUpdate]
            · exact par_chain_update hchain hnx
            · exact List.nodup_cons.mpr ⟨fun hvl => (hnx v hvl) rfl, hnd⟩
            · intro y hy
              rcases List.mem_cons.mp hy with hy | hy
              · subst hy; exact ⟨Finset.mem_insert_self _ _, hvnew⟩
              · exact ⟨Finset.mem_insert_of_mem (hmem y hy).1, (hmem y hy).2⟩
          · obtain ⟨l, hchain, hnd, hmem⟩ := hrun.run_chains v hv hvnew
            have hnx : ∀ y ∈ l, y ≠ x := fun y hy hyx =>
              hxv (hyx ▸ (hmem y hy).1)
            exact ⟨l, par_chain_update hchain hnx, hnd, fun y hy =>
              ⟨Finset.mem_insert_of_mem (hmem y hy).1, (hmem y hy).2⟩⟩
        · intro v hv
          rcases Finset.mem_insert.mp hv with hv | hv
          · subst hv
            obtain ⟨i, hi, hri⟩ := hrun.reach c hcv
            exact ⟨i, hi, Relation.ReflTransGen.tail hri hxc⟩
          · exact hrun.reach v hv
  | case4 c rest vis par hacc cycle hcyc =>
      intro hinv hrun vis' par' res heq
      rw [outer_dfs_run] at heq
      simp only [if_pos hacc, hcyc] at heq
      injection heq with h1 heq
      injection heq with h2 h3
      subst h1; subst h2
      have hcv : c ∈ vis := hinv.frame_mem (c, []) (by simp)
      have hcnew : c ∉ vis0 := hrun.stack_new c (by simp)
      refine ⟨le_refl _, fun x cc hc => hrun.par_ok x cc hc, hrun.reach, ?_, ?_⟩
      · intro hres
        rw [← h3] at hres
        cases hres
      · intro pref cyc hres
        rw [← h3] at hres
        injection hres with hres
        injection hres with hres1 hres2
        obtain ⟨l, hchain, hnd, hmem⟩ := hrun.run_chains c hcv hcnew
        have hbp : build_path par i0 c = l.reverse := build_path_of_chain hchain hnd
        refine ⟨c, hcv, hacc, by rw [← hres2]; exact hcyc, ?_, ?_, ?_⟩
        · rw [← hres1, hbp, List.head?_reverse]
          exact par_chain_getLast hchain
        · rw [← hres1, hbp, List.getLast?_reverse]
          exact par_chain_head hchain
        · rw [← hres1, hbp]
          exact par_chain_reverse_chain' (fun x cc hc => (hrun.par_ok x cc hc).1)
            hchain
  | case5 c rest vis par hacc hnone ih =>
      intro hinv hrun vis' par' res heq
      rw [outer_dfs_run] at heq
      simp only [if_pos hacc, hnone] at heq
      refine ih ?_ ?_ vis' par' res heq
      · refine ⟨fun e he => hinv.frame_mem e (by simp [he]),
          fun e he => hinv.frame_pending e (by simp [he]),
          fun e he => hinv.frame_handled e (by simp [he]), ?_, ?_⟩
        · intro v hv hst y hy
          by_cases hvc : v = c
          · subst hvc
            rcases hinv.frame_handled (v, []) (by simp) y hy with hp | hp
            · cases hp
            · exact hp
          · exact hinv.off_stack_closed v hv (by simp [hst, hvc]) y hy
        · intro v hv hst
          by_cases hvc : v = c
          · subst hvc; intro _; exact hnone
          · exact hinv.off_stack_acc v hv (by simp [hst, hvc])
      · exact ⟨hrun.i0_mem, hrun.i0_new, hrun.vis0_sub,
          fun y hy => hrun.stack_new y (by simp [hy]), hrun.par_ok,
          hrun.run_chains, hrun.i0_init, hrun.reach⟩
  | case6 c rest vis par hacc ih =>
      intro hinv hrun vis' par' res heq
      rw [outer_dfs_run] at heq
      simp only [if_neg hacc] at heq
      refine ih ?_ ?_ vis' par' res heq
      · refine ⟨fun e he => hinv.frame_mem e (by simp [he]),
          fun e he => hinv.frame_pending e (by simp [he]),
          fun e he => hinv.frame_handled e (by simp [he]), ?_, ?_⟩
        · intro v hv hst y hy
          by_cases hvc : v = c
          · subst hvc
            rcases hinv.frame_handled (v, []) (by simp) y hy with hp | hp
            · cases hp
            · exact hp
          · exact hinv.off_stack_closed v hv (by simp [hst, hvc]) y hy
        · intro v hv hst
          by_cases hvc : v = c
          · subst hvc; intro hca; exact absurd hca hacc
          · exact hinv.off_stack_acc v hv (by simp [hst, hvc])
      · exact ⟨hrun.i0_mem, hrun.i0_new, hrun.vis0_sub,
          fun y hy => hrun.stack_new y (by simp [hy]), hrun.par_ok,
          hrun.run_chains, hrun.i0_init, hrun.reach⟩

theorem nested_dfs_spec {S A Q : Type} [DecidableEq S] [DecidableEq Q]
    [Fintype S] [Fintype Q] (ls : LanguageSemantics S A)
    (b : BuchiAutomaton S Q) :
    ∀ roots vis par, (∀ s ∈ roots, s ∈ ls.initials) →
      OuterInv (product_successors ls b) (verify_is_accepting b) [] vis →
      (∀ x c, par x = some c →
        EdgeFn (product_successors ls b) c x ∧ x ∈ vis) →
      (∀ v ∈ vis, ∃ i ∈ verifyInitials ls b,
        ReachOf (product_successors ls b) i v) →
      (nested_dfs ls b roots vis par = (true, none) →
        ∃ vis' : Finset (S × Q), (∀ s ∈ roots, (s, b.initial) ∈ vis') ∧
          vis ⊆ vis' ∧
          OuterInv (product_successors ls b) (verify_is_accepting b) [] vis' ∧
          (∀ v ∈ vis', ∃ i ∈ verifyInitials ls b,
            ReachOf (product_successors ls b) i v)) ∧
      (∀ pref cyc, nested_dfs ls b roots vis par = (false, some (pref, cyc)) →
        ∃ i0 c, i0 ∈ verifyInitials ls b ∧ pref.head? = some i0 ∧
          pref.getLast? = some c ∧
          pref.Chain' (EdgeFn (product_successors ls b)) ∧
          verify_is_accepting b c = true ∧
          inner_dfs (product_successors ls b) c = some cyc ∧
          (∃ i ∈ verifyInitials ls b,
            ReachOf (product_successors ls b) i c)) ∧
      (nested_dfs ls b roots vis par = (true, none) ∨
        ∃ ce, nested_dfs ls b roots vis par = (false, some ce)) := by
  intro roots
  induction roots with
  | nil =>
      intro vis par hroots hinv hpar hreach
      rw [nested_dfs]
      refine ⟨?_, ?_, Or.inl rfl⟩
      · intro _
        exact ⟨vis, by simp, le_refl _, hinv, hreach⟩
      · intro pref cyc h
        cases h
  | cons s rest ih =>
      intro vis par hroots hinv hpar hreach
      by_cases hmem : (s, b.initial) ∈ vis
      · have heq : nested_dfs ls b (s :: rest) vis par =
            nested_dfs ls b rest vis par := by
          rw [nested_dfs]
          simp [hmem]
        rw [heq]
        have hrec := ih vis par (fun t ht => hroots t (by simp [ht])) hinv hpar
          hreach
        refine ⟨?_, hrec.2.1, hrec.2.2⟩
        intro htrue
        obtain ⟨vis', hall, hsub, hinv', hreach'⟩ := hrec.1 htrue
        refine ⟨vis', ?_, hsub, hinv', hreach'⟩
        intro t ht
        rcases List.mem_cons.mp ht with ht | ht
        · rw [ht]; exact hsub hmem
        · exact hall t ht
      · -- A fresh run from (s, b.initial).
        set i0 : S × Q := (s, b.initial) with hi0
        have hseedinv : OuterInv (product_successors ls b)
            (verify_is_accepting b) [(i0, product_successors ls b i0)]
            (insert i0 vis) := by
          refine ⟨?_, ?_, ?_, ?_, ?_⟩
          · intro e he
            simp at he
            subst he
            exact Finset.mem_insert_self _ _
          · intro e he y hy
            simp at he
            subst he
            exact hy
          · intro e he y hy
            simp at he
            subst he
            exact Or.inl hy
          · intro v hv hst y hy
            rcases Finset.mem_insert.mp hv with hv | hv
            · exact absurd (by simp [hv]) hst
            · exact Finset.mem_insert_of_mem
                (hinv.off_stack_closed v hv (by simp) y hy)
          · intro v hv hst
            rcases Finset.mem_insert.mp hv with hv | hv
            · exact absurd (by simp [hv]) hst
            · exact hinv.off_stack_acc v hv (by simp)
        have hi0init : i0 ∈ verifyInitials ls b := by
          rw [hi0]
          exact List.mem_map.mpr ⟨s, hroots s (by simp), rfl⟩
        have hseedrun : RunInv (product_successors ls b) (verifyInitials ls b)
            i0 vis (insert i0 vis) [(i0, product_successors ls b i0)] par := by
          refine ⟨Finset.mem_insert_self _ _, hmem, Finset.subset_insert _ _,
            ?_, ?_, ?_, hi0init, ?_⟩
          · intro y hy
            simp at hy
            rw [hy]
            exact hmem
          · intro x c hc
            obtain ⟨he, hm⟩ := hpar x c hc
            exact ⟨he, Finset.mem_insert_of_mem hm⟩
          · intro v hv hvnew
            rcases Finset.mem_insert.mp hv with hv | hv
            · have hparv : par i0 = none := by
                cases hpv : par i0 with
                | none => rfl
                | some c => exact absurd (hpar i0 c hpv).2 hmem
              rw [hv]
              refine ⟨[i0], ParChainTo.nil i0 hparv, by simp, ?_⟩
              intro y hy
              simp at hy
              rw [hy]
              exact ⟨Finset.mem_insert_self _ _, hmem⟩
            · exact absurd hv hvnew
          · intro v hv
            rcases Finset.mem_insert.mp hv with hv | hv
            · rw [hv]
              exact ⟨i0, hi0init, Relation.ReflTransGen.refl⟩
            · exact hreach v hv
        rcases houter : outer_dfs_run (product_successors ls b)
            (verify_is_accepting b) i0
            [(i0, product_successors ls b i0)] (insert i0 vis) par with
          ⟨vis1, par1, r⟩
        have hspec := outer_dfs_run_spec (product_successors ls b)
          (verify_is_accepting b) (verifyInitials ls b) i0 vis
          [(i0, product_successors ls b i0)] (insert i0 vis) par hseedinv
          hseedrun vis1 par1 r houter
        cases r with
        | some ce =>
            have heq : nested_dfs ls b (s :: rest) vis par = (false, some ce) := by
              rw [nested_dfs]
              simp only [if_neg hmem, houter]
            rw [heq]
            refine ⟨?_, ?_, Or.inr ⟨ce, rfl⟩⟩
            · intro h
              cases h
            · intro pref cyc h
              injection h with h1 h2
              injection h2 with h2
              obtain ⟨c, hcv, hacc, hcyc, hph, hpl, hpc⟩ :=
                hspec.2.2.2.2 pref cyc (by rw [h2])
              exact ⟨i0, c, hi0init, hph, hpl, hpc, hacc, hcyc,
                hspec.2.2.1 c hcv⟩
        | none =>
            have heq : nested_dfs ls b (s :: rest) vis par =
                nested_dfs ls b rest vis1 par1 := by
              rw [nested_dfs]
              simp only [if_neg hmem, houter]
            rw [heq]
            have hinv1 := hspec.2.2.2.1 rfl
            have hrec := ih vis1 par1 (fun t ht => hroots t (by simp [ht]))
              hinv1 hspec.2.1 hspec.2.2.1
            refine ⟨?_, hrec.2.1, hrec.2.2⟩
            intro htrue
            obtain ⟨vis', hall, hsub, hinv', hreach'⟩ := hrec.1 htrue
            refine ⟨vis', ?_, ?_, hinv', hreach'⟩
            · intro t ht
              rcases List.mem_cons.mp ht with ht | ht
              · rw [ht]
                exact hsub (hspec.1 (Finset.mem_insert_self _ _))
              · exact hall t ht
            · exact le_trans (le_trans (Finset.subset_insert _ _) hspec.1) hsub

theorem verify_buchi_base {S A Q : Type} [DecidableEq S] [DecidableEq Q]
    [Fintype S] [Fintype Q] (ls : LanguageSemantics S A)
    (b : BuchiAutomaton S Q) :
    (nested_dfs ls b ls.initials ∅ (fun _ => none) = (true, none) →
      ∃ vis' : Finset (S × Q), (∀ s ∈ ls.initials, (s, b.initial) ∈ vis') ∧
        (∅ : Finset (S × Q)) ⊆ vis' ∧
        OuterInv (product_successors ls b) (verify_is_accepting b) [] vis' ∧
        (∀ v ∈ vis', ∃ i ∈ verifyInitials ls b,
          ReachOf (product_successors ls b) i v)) ∧
    (∀ pref cyc,
      nested_dfs ls b ls.initials ∅ (fun _ => none) = (false, some (pref, cyc)) →
      ∃ i0 c, i0 ∈ verifyInitials ls b ∧ pref.head? = some i0 ∧
        pref.getLast? = some c ∧
        pref.Chain' (EdgeFn (product_successors ls b)) ∧
        verify_is_accepting b c = true ∧
        inner_dfs (product_successors ls b) c = some cyc ∧
        (∃ i ∈ verifyInitials ls b,
          ReachOf (product_successors ls b) i c)) ∧
    (nested_dfs ls b ls.initials ∅ (fun _ => none) = (true, none) ∨
      ∃ ce, nested_dfs ls b ls.initials ∅ (fun _ => none) = (false, some ce)) := by
  refine nested_dfs_spec ls b ls.initials ∅ (fun _ => none)
    (fun s hs => hs) ?_ ?_ ?_
  · exact ⟨fun e he => absurd he (by simp), fun e he => absurd he (by simp),
      fun e he => absurd he (by simp),
      fun v hv => absurd hv (by simp),
      fun v hv => absurd hv (by simp)⟩
  · intro x c hc
    cases hc
  · intro v hv
    exact absurd hv (by simp)

/-- C1: verify_buchi returns (true, none) exactly when no accepting composed
state reachable from the composed initial states lies on a cycle of the
product successor relation; when some reachable accepting composed state can
reach itself it returns false together with a non-None counter-example. -/
theorem verify_buchi_verdict_characterization {S A Q : Type} [DecidableEq S]
    [DecidableEq Q] [Fintype S] [Fintype Q] (ls : LanguageSemantics S A)
    (b : BuchiAutomaton S Q) :
    (verify_buchi ls b = (true, none) ↔
      ¬ ∃ p, VReachable ls b p ∧ verify_is_accepting b p = true ∧
        Relation.TransGen (EdgeFn (product_successors ls b)) p p) ∧
    ((verify_buchi ls b).1 = false →
      ∃ ce, (verify_buchi ls b).2 = some ce) := by
  have hbase := verify_buchi_base ls b
  have hdef : verify_buchi ls b = nested_dfs ls b ls.initials ∅ (fun _ => none) :=
    rfl
  constructor
  · constructor
    · intro heq
      rintro ⟨p, ⟨i, hiI, hreachp⟩, hacc, hcyc⟩
      obtain ⟨vis', hall, _, hinv', _⟩ := hbase.1 (hdef ▸ heq)
      obtain ⟨s, hs, hsi⟩ := List.mem_map.mp hiI
      have hivis : i ∈ vis' := by
        rw [← hsi]
        exact hall s hs
      have hclosed : ∀ v ∈ vis', ∀ x ∈ product_successors ls b v, x ∈ vis' :=
        fun v hv x hx => hinv'.off_stack_closed v hv (by simp) x hx
      have hpvis : p ∈ vis' := reach_mem_of_closed hclosed hivis hreachp
      have hnone := hinv'.off_stack_acc p hpvis (by simp) hacc
      exact (inner_dfs_none_iff (product_successors ls b) p).mp hnone hcyc
    · intro hno
      rcases hbase.2.2 with h | ⟨ce, hce⟩
      · rw [hdef]; exact h
      · exfalso
        rcases ce with ⟨pref, cyc⟩
        obtain ⟨i0, c, hi0, hph, hpl, hpc, hacc, hinner, hreachc⟩ :=
          hbase.2.1 pref cyc hce
        obtain ⟨hch, hcl, hc2, hcc⟩ :=
          inner_dfs_some_shape (product_successors ls b) c cyc hinner
        exact hno ⟨c, hreachc, hacc, transGen_of_lasso hc2 hch hcl hcc⟩
  · intro hfalse
    rcases hbase.2.2 with h | ⟨ce, hce⟩
    · rw [hdef] at hfalse ⊢
      rw [h] at hfalse
      cases hfalse
    · rw [hdef, hce]
      exact ⟨ce, rfl⟩

theorem verify_buchi_verdict_characterization_witness :
    (verify_buchi toggleLS alwaysBA).1 = false ∧
    (∃ ce, (verify_buchi toggleLS alwaysBA).2 = some ce) ∧
    ¬ (verify_buchi toggleLS alwaysBA = (true, none) ∧
      ¬ ∃ p, VReachable toggleLS alwaysBA p ∧
        verify_is_accepting alwaysBA p = true ∧
        Relation.TransGen (EdgeFn (product_successors toggleLS alwaysBA)) p p) := by
  have h := verify_buchi_verdict_characterization toggleLS alwaysBA
  have hfst : (verify_buchi toggleLS alwaysBA).1 = false := by
    simp [verify_buchi, nested_dfs, outer_dfs_run, inner_dfs, inner_dfs_go,
      toggleLS, alwaysBA, product_successors, verify_is_accepting, build_path,
      build_path_go, parUpdate]
  refine ⟨hfst, h.2 hfst, ?_⟩
  rintro ⟨heq, hno⟩
  rw [heq] at hfst
  cases hfst

/-- C3: whenever verify_buchi returns a counter-example, the prefix is a
non-empty product path from a composed initial state to an accepting
composed state, and the cycle is a product path from that accepting state
back to itself with the closing repetition included. -/
theorem counter_example_lasso_shape {S A Q : Type} [DecidableEq S]
    [DecidableEq Q] [Fintype S] [Fintype Q] (ls : LanguageSemantics S A)
    (b : BuchiAutomaton S Q) (pref cyc : List (S × Q))
    (h : verify_buchi ls b = (false, some (pref, cyc))) :
    pref ≠ [] ∧ (∃ i ∈ verifyInitials ls b, pref.head? = some i) ∧
    pref.Chain' (EdgeFn (product_successors ls b)) ∧
    ∃ c, pref.getLast? = some c ∧ verify_is_accepting b c = true ∧
      cyc.head? = some c ∧ cyc.getLast? = some c ∧ 2 ≤ cyc.length ∧
      cyc.Chain' (EdgeFn (product_successors ls b)) := by
  have hbase := verify_buchi_base ls b
  obtain ⟨i0, c, hi0, hph, hpl, hpc, hacc, hinner, _⟩ :=
    hbase.2.1 pref cyc h
  obtain ⟨hch, hcl, hc2, hcc⟩ :=
    inner_dfs_some_shape (product_successors ls b) c cyc hinner
  refine ⟨?_, ⟨i0, hi0, hph⟩, hpc, c, hpl, hacc, hch, hcl, hc2, hcc⟩
  intro hnil
  rw [hnil] at hph
  cases hph

theorem counter_example_lasso_shape_witness :
    let pref : List (Bool × Bool) := [(false, false), (true, false)]
    let cyc : List (Bool × Bool) := [(true, false), (false, false), (true, false)]
    pref ≠ [] ∧ (∃ i ∈ verifyInitials toggleLS alwaysBA, pref.head? = some i) ∧
    pref.Chain' (EdgeFn (product_successors toggleLS alwaysBA)) ∧
    ∃ c, pref.getLast? = some c ∧ verify_is_accepting alwaysBA c = true ∧
      cyc.head? = some c ∧ cyc.getLast? = some c ∧ 2 ≤ cyc.length ∧
      cyc.Chain' (EdgeFn (product_successors toggleLS alwaysBA)) := by
  have hv : verify_buchi toggleLS alwaysBA =
      (false, some ([(false, false), (true, false)],
        [(true, false), (false, false), (true, false)])) := by
    simp [verify_buchi, nested_dfs, outer_dfs_run, inner_dfs, inner_dfs_go,
      toggleLS, alwaysBA, product_successors, verify_is_accepting, build_path,
      build_path_go, parUpdate]
  exact counter_example_lasso_shape toggleLS alwaysBA _ _ hv

/- ===================================================================
   C2 and C4: relating the verifier's product to StepSyncComposition.
   =================================================================== -/

theorem filterMap_guard_eq_map_filter {α β : Type} (p : α → Bool) (f : α → β) :
    ∀ l : List α,
      l.filterMap (fun x => if p x then some (f x) else none) =
        (l.filter p).map f := by
  intro l
  induction l with
  | nil => rfl
  | cons x t ih =>
      by_cases hx : p x
      · simp [List.filterMap_cons, List.filter_cons, hx, ih]
      · simp [List.filterMap_cons, List.filter_cons, hx, ih]

/-- C2 (amended): for the same system and automaton data, the verifier's
product successor relation coincides with the synchronous composition's
action-then-execute successors on deadlocked composed states, and on live
composed states all of whose system successors have at least one enabled
action; the verifier's composed initial states pair each system initial with
the un-advanced initial buchi label, rather than advancing the property one
observation step as StepSyncComposition.initials does. -/
theorem step_sync_product_agreement {S A Q : Type}
    (ls : LanguageSemantics S A) (b : BuchiAutomaton S Q) :
    (∀ c : S × Q, (ls.actions c.1).isEmpty = true →
      StepSyncComposition.successors ls (buchiToISoup b) c =
        product_successors ls b c) ∧
    (∀ c : S × Q, (ls.actions c.1).isEmpty = false →
      (∀ a ∈ ls.actions c.1, ∀ ns ∈ ls.execute c.1 a,
        (ls.actions ns).isEmpty = false) →
      StepSyncComposition.successors ls (buchiToISoup b) c =
        product_successors ls b c) ∧
    verifyInitials ls b = ls.initials.map (fun s => (s, b.initial)) := by
  refine ⟨?_, ?_, rfl⟩
  · intro c hdead
    rw [StepSyncComposition.successors, StepSyncComposition.actions,
      if_pos hdead, product_successors, if_pos hdead]
    simp only [List.flatMap_cons, List.flatMap_nil, List.append_nil]
    rw [StepSyncComposition.execute, ISoupSemantics.enabled_transitions]
    exact (filterMap_guard_eq_map_filter
      (fun gt : (S → Bool → Bool) × Q => gt.1 c.1 true)
      (fun gt : (S → Bool → Bool) × Q => (c.1, gt.2))
      (b.transitions c.2)).symm
  · intro c hlive hsucc
    rw [StepSyncComposition.successors, StepSyncComposition.actions,
      if_neg (by rw [hlive]; exact Bool.false_ne_true),
      product_successors, if_neg (by rw [hlive]; exact Bool.false_ne_true)]
    rw [List.flatMap_map]
    refine List.flatMap_congr ?_
    intro a ha
    rw [StepSyncComposition.execute]
    refine List.flatMap_congr ?_
    intro ns hns
    rw [ISoupSemantics.enabled_transitions, hsucc a ha ns hns]
    exact (filterMap_guard_eq_map_filter
      (fun gt : (S → Bool → Bool) × Q => gt.1 ns false)
      (fun gt : (S → Bool → Bool) × Q => (ns, gt.2))
      (b.transitions c.2)).symm

theorem step_sync_product_agreement_witness :
    StepSyncComposition.successors toggleLS (buchiToISoup alwaysBA)
        (false, false) =
      product_successors toggleLS alwaysBA (false, false) := by
  have h := step_sync_product_agreement toggleLS alwaysBA
  exact h.2.1 (false, false) (by simp [toggleLS])
    (by intro a ha ns hns; simp [toggleLS])

theorem step_sync_product_mismatch_counterexample :
    ((false, true) ∈ StepSyncComposition.initials toggleLS
        (buchiToISoup branchBA) ∧
      (false, true) ∉ verifyInitials toggleLS branchBA) ∧
    StepSyncComposition.successors deadLS (buchiToISoup deadlockBA)
        (false, false) = [(true, true)] ∧
    product_successors deadLS deadlockBA (false, false) = [(true, false)] := by
  refine ⟨⟨?_, ?_⟩, ?_, ?_⟩
  · simp [StepSyncComposition.initials, toggleLS, branchBA, buchiToISoup,
      ISoupSemantics.enabled_transitions, ISoupSemantics.initialsList]
  · simp [verifyInitials, toggleLS, branchBA]
  · simp [StepSyncComposition.successors, StepSyncComposition.actions,
      StepSyncComposition.execute, deadLS, deadlockBA, buchiToISoup,
      ISoupSemantics.enabled_transitions]
  · simp [product_successors, deadLS, deadlockBA]

/-- C4 (amended): every composed state emitted by
StepSyncComposition.initials, or emitted by StepSyncComposition.execute for
an action drawn from StepSyncComposition.actions, was produced by an
automaton transition whose guard held on the system state paired with it,
with the deadlock flag computed for that system state.  (The nested-DFS
verifier's own initial composed states pair the initial buchi label
unconditionally and are not so justified.) -/
theorem ssc_states_observer_justified {S A Q : Type}
    (ls : LanguageSemantics S A) (prop : ISoupSemantics S Q) :
    (∀ c ∈ StepSyncComposition.initials ls prop,
      ObserverJustified ls prop.transitions c) ∧
    (∀ c a c', a ∈ StepSyncComposition.actions ls c →
      c' ∈ StepSyncComposition.execute ls prop c a →
      ObserverJustified ls prop.transitions c') := by
  constructor
  · intro c hc
    rw [StepSyncComposition.initials] at hc
    obtain ⟨si, hsi, hc⟩ := List.mem_flatMap.mp hc
    obtain ⟨pi, hpi, hc⟩ := List.mem_flatMap.mp hc
    obtain ⟨gt, hgt, hc⟩ := List.mem_map.mp hc
    rw [ISoupSemantics.enabled_transitions] at hgt
    have hmem := List.mem_filter.mp hgt
    refine ⟨pi, gt.1, ?_, ?_⟩
    · rw [← hc]
      exact hmem.1
    · rw [← hc]
      exact hmem.2
  · intro c a c' ha hc'
    cases a with
    | deadlock =>
        have hdead : (ls.actions c.1).isEmpty = true := by
          rw [StepSyncComposition.actions] at ha
          by_cases hd : (ls.actions c.1).isEmpty
          · exact hd
          · rw [if_neg hd] at ha
            obtain ⟨b, _, hb⟩ := List.mem_map.mp ha
            cases hb
        rw [StepSyncComposition.execute] at hc'
        obtain ⟨gt, hgt, hc'⟩ := List.mem_map.mp hc'
        rw [ISoupSemantics.enabled_transitions] at hgt
        have hmem := List.mem_filter.mp hgt
        refine ⟨c.2, gt.1, ?_, ?_⟩
        · rw [← hc']
          exact hmem.1
        · rw [← hc']
          simp only
          rw [hdead]
          exact hmem.2
    | sys a0 =>
        rw [StepSyncComposition.execute] at hc'
        obtain ⟨ns, hns, hc'⟩ := List.mem_flatMap.mp hc'
        obtain ⟨gt, hgt, hc'⟩ := List.mem_map.mp hc'
        rw [ISoupSemantics.enabled_transitions] at hgt
        have hmem := List.mem_filter.mp hgt
        refine ⟨c.2, gt.1, ?_, ?_⟩
        · rw [← hc']
          exact hmem.1
        · rw [← hc']
          exact hmem.2

theorem ssc_states_observer_justified_witness :
    ObserverJustified toggleLS (buchiToISoup branchBA).transitions
      (false, true) := by
  have h := ssc_states_observer_justified toggleLS (buchiToISoup branchBA)
  refine h.1 (false, true) ?_
  simp [StepSyncComposition.initials, toggleLS, branchBA, buchiToISoup,
    ISoupSemantics.enabled_transitions, ISoupSemantics.initialsList]

theorem observer_pairing_counterexample :
    (false, true) ∈ verifyInitials toggleLS orphanInitBA ∧
    VReachable toggleLS orphanInitBA (false, true) ∧
    ¬ ObserverJustified toggleLS orphanInitBA.transitions (false, true) ∧
    (true, false) ∈ product_successors deadLS deadlockBA (false, false) ∧
    ¬ ObserverJustified deadLS deadlockBA.transitions (true, false) := by
  refine ⟨?_, ?_, ?_, ?_, ?_⟩
  · simp [verifyInitials, toggleLS, orphanInitBA]
  · refine ⟨(false, true), ?_, Relation.ReflTransGen.refl⟩
    simp [verifyInitials, toggleLS, orphanInitBA]
  · rintro ⟨p, g, hmem, hg⟩
    simp only [orphanInitBA] at hmem
    rcases List.mem_cons.mp hmem with hm | hm
    · have : (true : Bool) = false := congrArg Prod.snd hm
      cases this
    · cases hm
  · simp [product_successors, deadLS, deadlockBA]
  · rintro ⟨p, g, hmem, hg⟩
    simp only [deadlockBA] at hmem
    rcases List.mem_cons.mp hmem with hm | hm
    · have hgg : g = fun _ d => !d := congrArg Prod.fst hm
      rw [hgg] at hg
      simp [deadLS] at hg
    · rcases List.mem_cons.mp hm with hm | hm
      · have : (false : Bool) = true := congrArg Prod.snd hm
        cases this
      · cases hm

/- ===================================================================
   C5, C6, C8, C9.
   =================================================================== -/

/-- C5: verify_buchi reads the attributes initial, accepting and transitions
from its property argument; a BuchiAutomaton instance carries all three, so
the call produces a (satisfied, counter_example) verdict, while an
ISoupSemantics instance carries them only under the underscore-prefixed
names, so the verify_one call path fails attribute resolution (raising
AttributeError) instead of returning a verdict. -/
theorem verify_buchi_attribute_mismatch :
    verifyBuchiAttrsResolve buchiAutomatonAttrs [] = true ∧
    verifyBuchiAttrsResolve isoupInstanceAttrs isoupClassAttrs = false ∧
    pyHasAttr isoupInstanceAttrs isoupClassAttrs "initial" = false ∧
    pyHasAttr isoupInstanceAttrs isoupClassAttrs "accepting" = false ∧
    pyHasAttr isoupInstanceAttrs isoupClassAttrs "transitions" = false ∧
    verify_buchi toggleLS alwaysBA =
      (false, some ([(false, false), (true, false)],
        [(true, false), (false, false), (true, false)])) := by
  refine ⟨by decide, by decide, by decide, by decide, by decide, ?_⟩
  simp [verify_buchi, nested_dfs, outer_dfs_run, inner_dfs, inner_dfs_go,
    toggleLS, alwaysBA, product_successors, verify_is_accepting, build_path,
    build_path_go, parUpdate]

/-- C6 (amended): for the fixed graph 0 to 1 and 2, 1 to 3, 2 to 3, BFS
exploration from 0 reports 4 states and 4 transitions, and get_path(0,3) is
the three-vertex sequence 0, 1, 3 with endpoints 0 and 3. -/
theorem bfs_fixed_graph_stats :
    exploreStats (explore testGraph 0) = (4, 4) ∧
    get_path (explore testGraph 0) 0 3 = [0, 1, 3] ∧
    (get_path (explore testGraph 0) 0 3).length = 3 ∧
    (get_path (explore testGraph 0) 0 3).head? = some 0 ∧
    (get_path (explore testGraph 0) 0 3).getLast? = some 3 := by
  have hp : get_path (explore testGraph 0) 0 3 = [0, 1, 3] := by
    simp [explore, exploreGo, testGraph, get_path, getPathGo, parLookup,
      graphUpdate]
  refine ⟨?_, hp, by rw [hp]; rfl, by rw [hp]; rfl, by rw [hp]; rfl⟩
  simp [explore, exploreGo, testGraph, exploreStats, graphUpdate]

theorem bfs_fixed_graph_path_length_counterexample :
    (get_path (explore testGraph 0) 0 3).length ≠ 4 := by
  have hp : get_path (explore testGraph 0) 0 3 = [0, 1, 3] := by
    simp [explore, exploreGo, testGraph, get_path, getPathGo, parLookup,
      graphUpdate]
  rw [hp]
  decide

/-- C8: the composition's actions are the system's actions when any exist
and exactly the deadlock sentinel otherwise; executing the sentinel advances
only the property component with the deadlock flag true, leaving the system
component of every emitted successor unchanged. -/
theorem ssc_actions_execute_deadlock_frame {S A Q : Type}
    (ls : LanguageSemantics S A) (prop : ISoupSemantics S Q) (s : S) (q : Q) :
    ((ls.actions s).isEmpty = false →
      StepSyncComposition.actions ls (s, q) =
        (ls.actions s).map ComposedAction.sys) ∧
    ((ls.actions s).isEmpty = true →
      StepSyncComposition.actions ls (s, q) = [ComposedAction.deadlock]) ∧
    StepSyncComposition.execute ls prop (s, q) ComposedAction.deadlock =
      (prop.enabled_transitions q s true).map (fun gt => (s, gt.2)) ∧
    (∀ c ∈ StepSyncComposition.execute ls prop (s, q) ComposedAction.deadlock,
      c.1 = s) := by
  refine ⟨?_, ?_, rfl, ?_⟩
  · intro hlive
    rw [StepSyncComposition.actions,
      if_neg (by rw [hlive]; exact Bool.false_ne_true)]
  · intro hdead
    rw [StepSyncComposition.actions, if_pos hdead]
  · intro c hc
    rw [StepSyncComposition.execute] at hc
    obtain ⟨gt, _, hc⟩ := List.mem_map.mp hc
    rw [← hc]

theorem ssc_actions_execute_deadlock_frame_witness :
    StepSyncComposition.actions deadLS ((true, false) : Bool × Bool) =
      [ComposedAction.deadlock] ∧
    (∀ c ∈ StepSyncComposition.execute deadLS (buchiToISoup deadlockBA)
        ((true, false) : Bool × Bool) ComposedAction.deadlock, c.1 = true) := by
  have h := ssc_actions_execute_deadlock_frame deadLS
    (buchiToISoup deadlockBA) true false
  exact ⟨h.2.1 (by simp [deadLS]), h.2.2.2⟩

/-- C9: the rule engine's actions are exactly the pieces whose guard holds,
in rule-set order, and execute applies the chosen piece's effect as a
singleton; the two-state toggle enables exactly one rule per state, each
yielding the other state. -/
theorem soup_actions_guard_filter_toggle {St : Type} (soup : Soup St)
    (s : St) :
    (∀ p, p ∈ SoupLanguageSemantics.actions soup s ↔
      p ∈ soup.pieces ∧ p.guard s = true) ∧
    (SoupLanguageSemantics.actions soup s).Sublist soup.pieces ∧
    (∀ p : Piece St, SoupLanguageSemantics.execute s p = [p.effect s]) ∧
    SoupLanguageSemantics.actions clk1 0 = [to1] ∧
    SoupLanguageSemantics.actions clk1 1 = [to0] ∧
    SoupLanguageSemantics.execute 0 to1 = [1] ∧
    SoupLanguageSemantics.execute 1 to0 = [0] := by
  refine ⟨?_, ?_, fun p => rfl, ?_, ?_, rfl, rfl⟩
  · intro p
    rw [SoupLanguageSemantics.actions]
    exact List.mem_filter
  · exact List.filter_sublist _
  · simp [SoupLanguageSemantics.actions, clk1, to1, to0]
  · simp [SoupLanguageSemantics.actions, clk1, to1, to0]

/- ===================================================================
   Correctness of breadth_first_search (common/bfs.py).
   =================================================================== -/

theorem bfsGo_trace {S O : Type} [DecidableEq S] [Fintype S]
    (rg : RootedGraph S) (on_entry : S → O → Bool × O) :
    ∀ scan q vis userdata, ∃ L : List S, L.Nodup ∧ (∀ x ∈ L, x ∉ vis) ∧
      (bfsGo rg on_entry scan q vis userdata).1 =
        applyEntries on_entry L userdata ∧
      (bfsGo rg on_entry scan q vis userdata).2 = vis ∪ L.toFinset := by
  intro scan q vis userdata
  induction scan, q, vis, userdata using bfsGo.induct rg on_entry with
  | case1 c n ns q vis userdata hn ih =>
      have heq : bfsGo rg on_entry (some (c, n :: ns)) q vis userdata =
          bfsGo rg on_entry (some (c, ns)) q vis userdata := by
        rw [bfsGo]
        simp [hn]
      rw [heq]
      exact ih
  | case2 c n ns q vis userdata hn userdata' hoe =>
      have heq : bfsGo rg on_entry (some (c, n :: ns)) q vis userdata =
          (userdata', insert n vis) := by
        rw [bfsGo]
        simp [hn, hoe]
      rw [heq]
      refine ⟨[n], by simp, by simpa using hn, ?_, ?_⟩
      · simp [applyEntries, hoe]
      · rw [Finset.insert_eq, Finset.union_comm]
        simp
  | case3 c n ns q vis userdata hn stop userdata' hoe hstop ih =>
      have hstop' : stop = false := by
        cases stop with
        | false => rfl
        | true => exact absurd rfl hstop
      subst hstop'
      have heq : bfsGo rg on_entry (some (c, n :: ns)) q vis userdata =
          bfsGo rg on_entry (some (c, ns)) (q ++ [n]) (insert n vis)
            userdata' := by
        rw [bfsGo]
        simp [hn, hoe]
      rw [heq]
      obtain ⟨L, hnd, hfresh, hfst, hsnd⟩ := ih
      refine ⟨n :: L, ?_, ?_, ?_, ?_⟩
      · exact List.nodup_cons.mpr
          ⟨fun hm => hfresh n hm (Finset.mem_insert_self _ _), hnd⟩
      · intro x hx
        rcases List.mem_cons.mp hx with hx | hx
        · rw [hx]; exact hn
        · exact fun hxv => hfresh x hx (Finset.mem_insert_of_mem hxv)
      · rw [hfst]
        simp [applyEntries, hoe]
      · rw [hsnd]
        ext y
        simp only [Finset.mem_union, Finset.mem_insert, List.toFinset_cons,
          List.mem_toFinset]
        tauto
  | case4 c q vis userdata ih =>
      have heq : bfsGo rg on_entry (some (c, [])) q vis userdata =
          bfsGo rg on_entry none q vis userdata := by
        rw [bfsGo]
      rw [heq]
      exact ih
  | case5 c q vis userdata ih =>
      have heq : bfsGo rg on_entry none (c :: q) vis userdata =
          bfsGo rg on_entry (some (c, rg.neighbors c)) q vis userdata := by
        rw [bfsGo]
      rw [heq]
      exact ih
  | case6 vis userdata =>
      have heq : bfsGo rg on_entry none [] vis userdata = (userdata, vis) := by
        rw [bfsGo]
      rw [heq]
      exact ⟨[], by simp, by simp, by simp [applyEntries], by simp⟩

theorem bfsSeed_trace {S O : Type} [DecidableEq S] [Fintype S]
    (rg : RootedGraph S) (on_entry : S → O → Bool × O) :
    ∀ rem q vis userdata, ∃ L : List S, L.Nodup ∧ (∀ x ∈ L, x ∉ vis) ∧
      (bfsSeed rg on_entry rem q vis userdata).1 =
        applyEntries on_entry L userdata ∧
      (bfsSeed rg on_entry rem q vis userdata).2 = vis ∪ L.toFinset := by
  intro rem
  induction rem with
  | nil =>
      intro q vis userdata
      rw [bfsSeed]
      exact bfsGo_trace rg on_entry none q vis userdata
  | cons r rs ih =>
      intro q vis userdata
      by_cases hr : r ∈ vis
      · have heq : bfsSeed rg on_entry (r :: rs) q vis userdata =
            bfsSeed rg on_entry rs q vis userdata := by
          rw [bfsSeed]
          simp [hr]
        rw [heq]
        exact ih q vis userdata
      · rcases hoe : on_entry r userdata with ⟨stop, userdata'⟩
        cases stop with
        | true =>
            have heq : bfsSeed rg on_entry (r :: rs) q vis userdata =
                (userdata', insert r vis) := by
              rw [bfsSeed]
              simp [hr, hoe]
            rw [heq]
            refine ⟨[r], by simp, by simpa using hr, ?_, ?_⟩
            · simp [applyEntries, hoe]
            · rw [Finset.insert_eq, Finset.union_comm]
              simp
        | false =>
            have heq : bfsSeed rg on_entry (r :: rs) q vis userdata =
                bfsSeed rg on_entry rs (q ++ [r]) (insert r vis) userdata' := by
              rw [bfsSeed]
              simp [hr, hoe]
            rw [heq]
            obtain ⟨L, hnd, hfresh, hfst, hsnd⟩ :=
              ih (q ++ [r]) (insert r vis) userdata'
            refine ⟨r :: L, ?_, ?_, ?_, ?_⟩
            · exact List.nodup_cons.mpr
                ⟨fun hm => hfresh r hm (Finset.mem_insert_self _ _), hnd⟩
            · intro x hx
              rcases List.mem_cons.mp hx with hx | hx
              · rw [hx]; exact hr
              · exact fun hxv => hfresh x hx (Finset.mem_insert_of_mem hxv)
            · simp only [hfst, applyEntries, List.foldl_cons, hoe]
            · rw [hsnd]
              ext y
              simp only [Finset.mem_union, Finset.mem_insert, List.toFinset_cons,
                List.mem_toFinset]
              tauto

theorem bfsGo_complete {S O : Type} [DecidableEq S] [Fintype S]
    (rg : RootedGraph S) (on_entry : S → O → Bool × O)
    (hns : ∀ s z, (on_entry s z).1 = false) :
    ∀ scan q vis userdata, BfsInv rg.neighbors rg.roots scan q vis →
      vis ⊆ (bfsGo rg on_entry scan q vis userdata).2 ∧
      (∀ v ∈ (bfsGo rg on_entry scan q vis userdata).2,
        ∀ x ∈ rg.neighbors v, x ∈ (bfsGo rg on_entry scan q vis userdata).2) ∧
      (∀ v ∈ (bfsGo rg on_entry scan q vis userdata).2,
        ∃ r ∈ rg.roots, ReachOf rg.neighbors r v) := by
  intro scan q vis userdata
  induction scan, q, vis, userdata using bfsGo.induct rg on_entry with
  | case1 c n ns q vis userdata hn ih =>
      intro hinv
      have heq : bfsGo rg on_entry (some (c, n :: ns)) q vis userdata =
          bfsGo rg on_entry (some (c, ns)) q vis userdata := by
        rw [bfsGo]
        simp [hn]
      rw [heq]
      refine ih ⟨hinv.active_mem, ?_, ?_, ?_, hinv.reach⟩
      · intro c' rem' hsome x hx
        injection hsome with hsome
        injection hsome with h1 h2
        rw [← h1]
        rw [← h2] at hx
        exact hinv.scan_pending c (n :: ns) rfl x (by simp [hx])
      · intro c' rem' hsome x hx
        injection hsome with hsome
        injection hsome with h1 h2
        rw [← h1] at hx
        rw [← h2]
        rcases hinv.scan_handled c (n :: ns) rfl x hx with hp | hp
        · rcases List.mem_cons.mp hp with hp | hp
          · rw [hp]; exact Or.inr hn
          · exact Or.inl hp
        · exact Or.inr hp
      · exact fun v hv hvn => hinv.off_closed v hv hvn
  | case2 c n ns q vis userdata hn userdata' hoe =>
      intro hinv
      have := hns n userdata
      rw [hoe] at this
      cases this
  | case3 c n ns q vis userdata hn stop userdata' hoe hstop ih =>
      intro hinv
      have hstop' : stop = false := by
        cases stop with
        | false => rfl
        | true => exact absurd rfl hstop
      subst hstop'
      have heq : bfsGo rg on_entry (some (c, n :: ns)) q vis userdata =
          bfsGo rg on_entry (some (c, ns)) (q ++ [n]) (insert n vis)
            userdata' := by
        rw [bfsGo]
        simp [hn, hoe]
      rw [heq]
      have hcv : c ∈ vis := hinv.active_mem c (by simp [activeList])
      have hnb : n ∈ rg.neighbors c :=
        hinv.scan_pending c (n :: ns) rfl n (by simp)
      refine (fun hmain => ⟨le_trans (Finset.subset_insert _ _) hmain.1,
        hmain.2.1, hmain.2.2⟩) (ih ⟨?_, ?_, ?_, ?_, ?_⟩)
      · intro x hx
        simp only [activeList, List.mem_cons, List.mem_append] at hx
        rcases hx with hx | hx | hx
        · rw [hx]
          exact Finset.mem_insert_of_mem hcv
        · exact Finset.mem_insert_of_mem
            (hinv.active_mem x (by simp [activeList, hx]))
        · simp at hx
          rw [hx]
          exact Finset.mem_insert_self _ _
      · intro c' rem' hsome x hx
        injection hsome with hsome
        injection hsome with h1 h2
        rw [← h1]
        rw [← h2] at hx
        exact hinv.scan_pending c (n :: ns) rfl x (by simp [hx])
      · intro c' rem' hsome x hx
        injection hsome with hsome
        injection hsome with h1 h2
        rw [← h1] at hx
        rw [← h2]
        rcases hinv.scan_handled c (n :: ns) rfl x hx with hp | hp
        · rcases List.mem_cons.mp hp with hp | hp
          · rw [hp]; exact Or.inr (Finset.mem_insert_self _ _)
          · exact Or.inl hp
        · exact Or.inr (Finset.mem_insert_of_mem hp)
      · intro v hv hvact x hx
        rcases Finset.mem_insert.mp hv with hv | hv
        · exfalso
          apply hvact
          simp [activeList, hv]
        · refine Finset.mem_insert_of_mem (hinv.off_closed v hv ?_ x hx)
          intro hvmem
          apply hvact
          simp only [activeList, List.mem_cons, List.mem_append] at hvmem ⊢
          tauto
      · intro v hv
        rcases Finset.mem_insert.mp hv with hv | hv
        · obtain ⟨r, hr, hrr⟩ := hinv.reach c hcv
          exact ⟨r, hr, by rw [hv]; exact Relation.ReflTransGen.tail hrr hnb⟩
        · exact hinv.reach v hv
  | case4 c q vis userdata ih =>
      intro hinv
      have heq : bfsGo rg on_entry (some (c, [])) q vis userdata =
          bfsGo rg on_entry none q vis userdata := by
        rw [bfsGo]
      rw [heq]
      refine ih ⟨?_, ?_, ?_, ?_, hinv.reach⟩
      · intro x hx
        exact hinv.active_mem x (by simp [activeList] at hx ⊢; exact Or.inr hx)
      · intro c' rem' hsome
        cases hsome
      · intro c' rem' hsome
        cases hsome
      · intro v hv hvact x hx
        by_cases hvc : v = c
        · rcases hinv.scan_handled c [] rfl x (by rw [← hvc]; exact hx)
            with hp | hp
          · cases hp
          · exact hp
        · refine hinv.off_closed v hv ?_ x hx
          intro hvmem
          apply hvact
          simp only [activeList, List.mem_cons] at hvmem ⊢
          rcases hvmem with hvm | hvm
          · exact absurd hvm hvc
          · exact hvm
  | case5 c q vis userdata ih =>
      intro hinv
      have heq : bfsGo rg on_entry none (c :: q) vis userdata =
          bfsGo rg on_entry (some (c, rg.neighbors c)) q vis userdata := by
        rw [bfsGo]
      rw [heq]
      refine ih ⟨?_, ?_, ?_, ?_, hinv.reach⟩
      · intro x hx
        exact hinv.active_mem x (by simpa [activeList] using hx)
      · intro c' rem' hsome x hx
        injection hsome with hsome
        injection hsome with h1 h2
        rw [← h1]
        rw [← h2] at hx
        exact hx
      · intro c' rem' hsome x hx
        injection hsome with hsome
        injection hsome with h1 h2
        rw [← h1] at hx
        rw [← h2]
        exact Or.inl hx
      · intro v hv hvact x hx
        refine hinv.off_closed v hv ?_ x hx
        intro hvmem
        apply hvact
        simpa [activeList] using hvmem
  | case6 vis userdata =>
      intro hinv
      have heq : bfsGo rg on_entry none [] vis userdata = (userdata, vis) := by
        rw [bfsGo]
      rw [heq]
      exact ⟨le_refl _,
        fun v hv x hx => hinv.off_closed v hv (by simp [activeList]) x hx,
        hinv.reach⟩

theorem bfsSeed_complete {S O : Type} [DecidableEq S] [Fintype S]
    (rg : RootedGraph S) (on_entry : S → O → Bool × O)
    (hns : ∀ s z, (on_entry s z).1 = false) :
    ∀ rem q vis userdata, (∀ v, v ∈ vis ↔ v ∈ q) →
      (∀ x ∈ rem, x ∈ rg.roots) →
      (∀ v ∈ vis, ∃ r ∈ rg.roots, ReachOf rg.neighbors r v) →
      vis ⊆ (bfsSeed rg on_entry rem q vis userdata).2 ∧
      (∀ x ∈ rem, x ∈ (bfsSeed rg on_entry rem q vis userdata).2) ∧
      (∀ v ∈ (bfsSeed rg on_entry rem q vis userdata).2,
        ∀ x ∈ rg.neighbors v, x ∈ (bfsSeed rg on_entry rem q vis userdata).2) ∧
      (∀ v ∈ (bfsSeed rg on_entry rem q vis userdata).2,
        ∃ r ∈ rg.roots, ReachOf rg.neighbors r v) := by
  intro rem
  induction rem with
  | nil =>
      intro q vis userdata hiff hroots hreach
      rw [bfsSeed]
      have h := bfsGo_complete rg on_entry hns none q vis userdata
        ⟨fun x hx => (hiff x).mpr hx, (fun c rem hsome => nomatch hsome),
         (fun c rem hsome => nomatch hsome),
         fun v hv hvq => absurd ((hiff v).mp hv) hvq, hreach⟩
      exact ⟨h.1, fun x hx => absurd hx (by simp), h.2.1, h.2.2⟩
  | cons r rs ih =>
      intro q vis userdata hiff hroots hreach
      by_cases hr : r ∈ vis
      · have heq : bfsSeed rg on_entry (r :: rs) q vis userdata =
            bfsSeed rg on_entry rs q vis userdata := by
          rw [bfsSeed]
          simp [hr]
        rw [heq]
        have h := ih q vis userdata hiff (fun x hx => hroots x (by simp [hx]))
          hreach
        refine ⟨h.1, ?_, h.2.2.1, h.2.2.2⟩
        intro x hx
        rcases List.mem_cons.mp hx with hx | hx
        · rw [hx]; exact h.1 hr
        · exact h.2.1 x hx
      · rcases hoe : on_entry r userdata with ⟨stop, userdata'⟩
        have hstop : stop = false := by
          have := hns r userdata
          rw [hoe] at this
          exact this
        subst hstop
        have heq : bfsSeed rg on_entry (r :: rs) q vis userdata =
            bfsSeed rg on_entry rs (q ++ [r]) (insert r vis) userdata' := by
          rw [bfsSeed]
          simp [hr, hoe]
        rw [heq]
        have hiff' : ∀ v, v ∈ insert r vis ↔ v ∈ q ++ [r] := by
          intro v
          rw [Finset.mem_insert, List.mem_append, hiff v]
          simp only [List.mem_singleton]
          tauto
        have h := ih (q ++ [r]) (insert r vis) userdata' hiff'
          (fun x hx => hroots x (by simp [hx])) ?_
        · refine ⟨le_trans (Finset.subset_insert _ _) h.1, ?_, h.2.2.1, h.2.2.2⟩
          intro x hx
          rcases List.mem_cons.mp hx with hx | hx
          · rw [hx]; exact h.1 (Finset.mem_insert_self _ _)
          · exact h.2.1 x hx
        · intro v hv
          rcases Finset.mem_insert.mp hv with hv | hv
          · exact ⟨r, hroots r (by simp), by rw [hv]; exact Relation.ReflTransGen.refl⟩
          · exact hreach v hv

theorem breadth_first_search_spec {S O : Type} [DecidableEq S] [Fintype S]
    (rg : RootedGraph S) (on_entry : S → O → Bool × O) (userdata : O) :
    (∃ L : List S, L.Nodup ∧
      (breadth_first_search rg on_entry userdata).1 =
        applyEntries on_entry L userdata ∧
      (breadth_first_search rg on_entry userdata).2 = L.toFinset) ∧
    ((∀ s z, (on_entry s z).1 = false) →
      ∀ v, v ∈ (breadth_first_search rg on_entry userdata).2 ↔
        ∃ r ∈ rg.roots, ReachOf rg.neighbors r v) := by
  constructor
  · obtain ⟨L, hnd, hfresh, hfst, hsnd⟩ :=
      bfsSeed_trace rg on_entry rg.roots [] ∅ userdata
    exact ⟨L, hnd, hfst, by rw [breadth_first_search, hsnd]; simp⟩
  · intro hns v
    have h := bfsSeed_complete rg on_entry hns rg.roots [] ∅ userdata
      (by simp) (fun x hx => hx) (by simp)
    constructor
    · intro hv
      exact h.2.2.2 v hv
    · rintro ⟨r, hr, hrr⟩
      exact reach_mem_of_closed h.2.2.1 (h.2.1 r hr) hrr

/- ===================================================================
   Correctness of BFS.explore and get_path (1-bfs/bfs.py).
   =================================================================== -/

theorem parLookup_append_left {S : Type} [DecidableEq S]
    (par l2 : List (S × Option S)) (t : S) (h : t ∈ par.map Prod.fst) :
    parLookup (par ++ l2) t = parLookup par t := by
  rw [parLookup, parLookup, List.find?_append]
  obtain ⟨e, he, het⟩ := List.mem_map.mp h
  cases hf : par.find? (fun e => decide (e.1 = t)) with
  | some x => rfl
  | none =>
      rw [List.find?_eq_none] at hf
      exact absurd (by simp [het]) (hf e he)

theorem parLookup_append_right {S : Type} [DecidableEq S]
    (par l2 : List (S × Option S)) (t : S) (h : t ∉ par.map Prod.fst) :
    parLookup (par ++ l2) t = parLookup l2 t := by
  rw [parLookup, parLookup, List.find?_append]
  have hf : par.find? (fun e => decide (e.1 = t)) = none := by
    rw [List.find?_eq_none]
    intro e he
    simp only [decide_eq_true_eq]
    intro het
    exact h (List.mem_map.mpr ⟨e, he, het⟩)
  rw [hf]
  rfl

theorem parLookup_singleton {S : Type} [DecidableEq S] (s : S) (v : Option S)
    (t : S) : parLookup [(s, v)] t = if t = s then v else none := by
  by_cases h : t = s
  · rw [parLookup, if_pos h, List.find?_cons_of_pos _ (by simp [h])]
  · rw [parLookup, if_neg h, List.find?_cons_of_neg _
      (by simp only [decide_eq_true_eq]; exact fun hst => h hst.symm)]
    rfl

theorem explore_seed_inv {S : Type} [DecidableEq S] [Fintype S]
    (f : S → List S) (start : S) :
    ExploreInv f start (fun _ => 0) ∅ none [start]
      ⟨{start}, [(start, [])], [(start, none)]⟩ := by
  refine ⟨by simp, rfl, by simp [activeList], by simp [activeList],
    by simp [activeList], by simp, ?_, ?_, ?_, ?_, ?_, ?_, ?_, ?_, ?_, ?_, ?_⟩
  · intro s
    simp [activeList]
  · rw [parLookup_singleton]
    simp
  · intro s p hp
    rw [parLookup_singleton] at hp
    by_cases hs : s = start
    · rw [if_pos hs] at hp
      cases hp
    · rw [if_neg hs] at hp
      cases hp
  · intro v hv hvs
    simp at hv
    exact absurd hv hvs
  · simp [activeList]
  · intro u hu w hw
    simp
  · intro p hp
    exact absurd hp (by simp)
  · intro p hp
    exact absurd hp (by simp)
  · intro c rem h
    cases h
  · intro c rem h
    cases h
  · intro v hv
    simp at hv
    rw [hv]
    exact Relation.ReflTransGen.refl

theorem explore_inv_active_sub {S : Type} [DecidableEq S] [Fintype S]
    {f : S → List S} {start : S} {D : S → Nat} {proc : Finset S}
    {scan : Option (S × List S)} {q : List S} {d : BFSData S}
    (hinv : ExploreInv f start D proc scan q d) :
    ∀ x ∈ activeList scan q, x ∈ d.visited := by
  intro x hx
  rw [← hinv.vis_split]
  exact Finset.mem_union_right _ (List.mem_toFinset.mpr hx)

theorem explore_inv_head_min {S : Type} [DecidableEq S] [Fintype S]
    {f : S → List S} {start : S} {D : S → Nat} {proc : Finset S} {c : S}
    {rem : List S} {q : List S} {d : BFSData S}
    (hinv : ExploreInv f start D proc (some (c, rem)) q d) :
    ∀ u ∈ c :: q, D c ≤ D u := by
  intro u hu
  rcases List.mem_cons.mp hu with hu | hu
  · rw [hu]
  · have hsorted := hinv.sorted
    rw [show activeList (some (c, rem)) q = c :: q from rfl,
      List.map_cons, List.sorted_cons] at hsorted
    exact hsorted.1 (D u) (List.mem_map.mpr ⟨u, hu, rfl⟩)

theorem explore_inv_vis_depth {S : Type} [DecidableEq S] [Fintype S]
    {f : S → List S} {start : S} {D : S → Nat} {proc : Finset S} {c : S}
    {rem : List S} {q : List S} {d : BFSData S}
    (hinv : ExploreInv f start D proc (some (c, rem)) q d) :
    ∀ s ∈ d.visited, D s ≤ D c + 1 := by
  intro s hsv
  rw [← hinv.vis_split] at hsv
  rcases Finset.mem_union.mp hsv with hp | ha
  · exact le_trans (hinv.proc_before s hp c (by
      rw [show activeList (some (c, rem)) q = c :: q from rfl]; simp))
      (Nat.le_succ _)
  · exact hinv.spread c (by
      rw [show activeList (some (c, rem)) q = c :: q from rfl]; simp) s
      (List.mem_toFinset.mp ha)

theorem exploreGo_spec {S : Type} [DecidableEq S] [Fintype S] (f : S → List S)
    (start : S) :
    ∀ scan q d, (∃ D proc, ExploreInv f start D proc scan q d) →
      ∃ D' proc', ExploreInv f start D' proc' none [] (exploreGo f scan q d) := by
  intro scan q d
  induction scan, q, d using exploreGo.induct f with
  | case1 c s rem q d hs ih =>
      rintro ⟨D, proc, hinv⟩
      have heq : exploreGo f (some (c, s :: rem)) q d =
          exploreGo f (some (c, rem)) q d := by
        rw [exploreGo]
        simp [hs]
      rw [heq]
      refine ih ⟨D, proc, hinv.start_mem, hinv.start_depth, hinv.vis_split,
        hinv.disj, hinv.active_nodup, hinv.par_keys_nodup, hinv.par_keys,
        hinv.par_start, hinv.par_some, hinv.par_total, hinv.sorted,
        hinv.spread, hinv.proc_before, hinv.proc_closed, ?_, ?_, hinv.reach⟩
      · intro c' rem' hsome x hx
        injection hsome with hsome
        injection hsome with h1 h2
        rw [← h1]
        rw [← h2] at hx
        exact hinv.scan_pending c (s :: rem) rfl x (by simp [hx])
      · intro c' rem' hsome x hx
        injection hsome with hsome
        injection hsome with h1 h2
        rw [← h1] at hx
        rw [← h2, ← h1]
        rcases hinv.scan_handled c (s :: rem) rfl x hx with hp | hp
        · rcases List.mem_cons.mp hp with hp | hp
          · rw [hp]
            exact Or.inr ⟨hs, explore_inv_vis_depth hinv s hs⟩
          · exact Or.inl hp
        · exact Or.inr hp
  | case2 c s rem q d hs ih =>
      rintro ⟨D, proc, hinv⟩
      have heq : exploreGo f (some (c, s :: rem)) q d =
          exploreGo f (some (c, rem)) (q ++ [s])
            ⟨insert s d.visited, d.graph, d.parent ++ [(s, some c)]⟩ := by
        rw [exploreGo]
        simp [hs]
      rw [heq]
      have hcv : c ∈ d.visited :=
        explore_inv_active_sub hinv c (by simp [activeList])
      have hsf : s ∈ f c := hinv.scan_pending c (s :: rem) rfl s (by simp)
      have hDle : ∀ u ∈ c :: q, D c ≤ D u := explore_inv_head_min hinv
      have hstart_ne : start ≠ s := fun h => hs (h ▸ hinv.start_mem)
      have hsq : s ∉ (c :: q : List S) := fun h =>
        hs (explore_inv_active_sub hinv s (by simpa [activeList] using h))
      have hkeys : ∀ t, t ∈ d.parent.map Prod.fst ↔ t ∈ d.visited :=
        hinv.par_keys
      have hskeys : s ∉ d.parent.map Prod.fst := fun h => hs ((hkeys s).mp h)
      have hDeq : ∀ t ∈ d.visited, (if t = s then D c + 1 else D t) = D t := by
        intro t ht
        have : t ≠ s := fun h => hs (h ▸ ht)
        simp [this]
      refine ih ⟨fun u => if u = s then D c + 1 else D u, proc, ?_, ?_, ?_, ?_,
        ?_, ?_, ?_, ?_, ?_, ?_, ?_, ?_, ?_, ?_, ?_, ?_, ?_⟩
      · exact Finset.mem_insert_of_mem hinv.start_mem
      · rw [if_neg hstart_ne]
        exact hinv.start_depth
      · show proc ∪ (c :: (q ++ [s])).toFinset = insert s d.visited
        rw [← hinv.vis_split]
        ext y
        rw [show activeList (some (c, s :: rem)) q = c :: q from rfl]
        simp only [Finset.mem_union, Finset.mem_insert, List.toFinset_cons,
          List.mem_toFinset, List.mem_append, List.mem_singleton,
          Finset.mem_insert]
        tauto
      · rw [Finset.disjoint_left]
        intro y hy
        have hyvis : y ∈ d.visited := by
          rw [← hinv.vis_split]
          exact Finset.mem_union_left _ hy
        have hnotold := Finset.disjoint_left.mp hinv.disj hy
        rw [show activeList (some (c, s :: rem)) q = c :: q from rfl] at hnotold
        show y ∉ (c :: (q ++ [s])).toFinset
        simp only [List.toFinset_cons, List.mem_toFinset, List.mem_append,
          List.mem_singleton, Finset.mem_insert] at hnotold ⊢
        rintro (hy1 | hy2 | hy3)
        · exact hnotold (by simp [hy1])
        · exact hnotold (by simp [hy2])
        · exact hs (hy3 ▸ hyvis)
      · show (c :: (q ++ [s])).Nodup
        have hold : (c :: q).Nodup := by
          have := hinv.active_nodup
          rwa [show activeList (some (c, s :: rem)) q = c :: q from rfl] at this
        rw [show (c :: (q ++ [s]) : List S) = (c :: q) ++ [s] from rfl,
          List.nodup_append]
        exact ⟨hold, by simp, by
          intro a ha hb
          simp only [List.mem_singleton] at hb
          exact hsq (hb ▸ ha)⟩
      · show ((d.parent ++ [(s, some c)]).map Prod.fst).Nodup
        rw [List.map_append]
        rw [List.nodup_append]
        exact ⟨hinv.par_keys_nodup, by simp, by
          intro a ha hb
          simp only [List.map_cons, List.map_nil, List.mem_singleton] at hb
          exact hskeys (hb ▸ ha)⟩
      · intro t
        show t ∈ (d.parent ++ [(s, some c)]).map Prod.fst ↔ t ∈ insert s d.visited
        rw [List.map_append, List.mem_append, hkeys t]
        simp only [List.map_cons, List.map_nil, List.mem_singleton,
          Finset.mem_insert]
        tauto
      · show parLookup (d.parent ++ [(s, some c)]) start = none
        rw [parLookup_append_left _ _ _ ((hkeys start).mpr hinv.start_mem)]
        exact hinv.par_start
      · intro t p hp
        by_cases ht : t ∈ d.parent.map Prod.fst
        · rw [show (⟨insert s d.visited, d.graph,
              d.parent ++ [(s, some c)]⟩ : BFSData S).parent =
              d.parent ++ [(s, some c)] from rfl,
            parLookup_append_left _ _ _ ht] at hp
          obtain ⟨hp1, hp2, hp3, hp4⟩ := hinv.par_some t p hp
          refine ⟨Finset.mem_insert_of_mem hp1, Finset.mem_insert_of_mem hp2,
            hp3, ?_⟩
          rw [hDeq t hp2, hDeq p hp1]
          exact hp4
        · rw [show (⟨insert s d.visited, d.graph,
              d.parent ++ [(s, some c)]⟩ : BFSData S).parent =
              d.parent ++ [(s, some c)] from rfl,
            parLookup_append_right _ _ _ ht, parLookup_singleton] at hp
          by_cases hts : t = s
          · rw [if_pos hts] at hp
            injection hp with hp
            refine ⟨?_, ?_, ?_, ?_⟩
            · rw [← hp]
              exact Finset.mem_insert_of_mem hcv
            · rw [hts]
              exact Finset.mem_insert_self _ _
            · rw [← hp, hts]
              exact hsf
            · rw [hts, if_pos rfl, ← hp, hDeq c hcv]
          · rw [if_neg hts] at hp
            cases hp
      · intro v hv hvstart
        rcases Finset.mem_insert.mp hv with hv | hv
        · refine ⟨c, ?_⟩
          show parLookup (d.parent ++ [(s, some c)]) v = some c
          rw [hv, parLookup_append_right _ _ _ hskeys, parLookup_singleton,
            if_pos rfl]
        · obtain ⟨p, hp⟩ := hinv.par_total v hv hvstart
          refine ⟨p, ?_⟩
          show parLookup (d.parent ++ [(s, some c)]) v = some p
          rw [parLookup_append_left _ _ _ ((hkeys v).mpr hv)]
          exact hp
      · show List.Sorted (fun m n => m ≤ n)
          ((c :: (q ++ [s])).map (fun u => if u = s then D c + 1 else D u))
        have hmapeq : (c :: q).map (fun u => if u = s then D c + 1 else D u) =
            (c :: q).map D := by
          refine List.map_congr_left ?_
          intro u hu
          have : u ≠ s := fun h => hsq (h ▸ hu)
          simp [this]
        rw [show (c :: (q ++ [s]) : List S) = (c :: q) ++ [s] from rfl,
          List.map_append, hmapeq]
        rw [List.Sorted, List.pairwise_append]
        refine ⟨?_, by simp, ?_⟩
        · have := hinv.sorted
          rwa [show activeList (some (c, s :: rem)) q = c :: q from rfl] at this
        · intro a ha b hb
          simp only [List.map_cons, List.map_nil, List.mem_singleton] at hb
          have hspread := hinv.spread
          rw [show activeList (some (c, s :: rem)) q = c :: q from rfl]
            at hspread
          obtain ⟨u, hu, hua⟩ := List.mem_map.mp ha
          have hub : a ≤ D c + 1 := by
            rw [← hua]
            exact hspread c (by simp) u hu
          have hbeq : b = D c + 1 := by
            rw [hb]
            simp
          rw [hbeq]
          exact hub
      · intro u hu w hw
        rw [show activeList (some (c, rem)) (q ++ [s]) = c :: (q ++ [s])
          from rfl] at hu hw
        have hmem : ∀ y, y ∈ (c :: (q ++ [s]) : List S) →
            y ∈ (c :: q : List S) ∨ y = s := by
          intro y hy
          rcases List.mem_cons.mp hy with hy | hy
          · exact Or.inl (by simp [hy])
          · rcases List.mem_append.mp hy with hy | hy
            · exact Or.inl (by simp [hy])
            · exact Or.inr (by simpa using hy)
        have hspread := hinv.spread
        rw [show activeList (some (c, s :: rem)) q = c :: q from rfl]
          at hspread
        rcases hmem u hu with hu' | hu' <;> rcases hmem w hw with hw' | hw'
        · have h1 : u ≠ s := fun h => hsq (h ▸ hu')
          have h2 : w ≠ s := fun h => hsq (h ▸ hw')
          rw [if_neg h2, if_neg h1]
          exact hspread u hu' w hw'
        · have h1 : u ≠ s := fun h => hsq (h ▸ hu')
          rw [hw', if_pos rfl, if_neg h1]
          exact Nat.succ_le_succ (hDle u hu')
        · have h2 : w ≠ s := fun h => hsq (h ▸ hw')
          rw [if_neg h2, hu', if_pos rfl]
          have hwc : D w ≤ D c + 1 := hspread c (by simp) w hw'
          omega
        · rw [hu', hw', if_pos rfl]
          omega
      · intro p hp u hu
        rw [show activeList (some (c, rem)) (q ++ [s]) = c :: (q ++ [s])
          from rfl] at hu
        have hpproc : p ∈ d.visited := by
          rw [← hinv.vis_split]
          exact Finset.mem_union_left _ hp
        have hpb := hinv.proc_before p hp
        rw [show activeList (some (c, s :: rem)) q = c :: q from rfl] at hpb
        rw [hDeq p hpproc]
        rcases List.mem_cons.mp hu with hu | hu
        · rw [hu, hDeq c hcv]
          exact hpb c (by simp)
        · rcases List.mem_append.mp hu with hu | hu
          · have huv : u ∈ d.visited :=
              explore_inv_active_sub hinv u (by simp [activeList, hu])
            rw [hDeq u huv]
            exact hpb u (by simp [hu])
          · simp only [List.mem_singleton] at hu
            rw [hu, if_pos rfl]
            exact le_trans (hpb c (by simp)) (Nat.le_succ _)
      · intro p hp x hx
        obtain ⟨h1, h2⟩ := hinv.proc_closed p hp x hx
        exact ⟨Finset.mem_insert_of_mem h1, by
          have hpv : p ∈ d.visited := by
            rw [← hinv.vis_split]
            exact Finset.mem_union_left _ hp
          rw [hDeq x h1, hDeq p hpv]
          exact h2⟩
      · intro c' rem' hsome x hx
        injection hsome with hsome
        injection hsome with h1 h2
        rw [← h1]
        rw [← h2] at hx
        exact hinv.scan_pending c (s :: rem) rfl x (by simp [hx])
      · intro c' rem' hsome x hx
        injection hsome with hsome
        injection hsome with h1 h2
        rw [← h1] at hx
        rw [← h2, ← h1]
        rcases hinv.scan_handled c (s :: rem) rfl x hx with hp | hp
        · rcases List.mem_cons.mp hp with hp | hp
          · rw [hp]
            refine Or.inr ⟨Finset.mem_insert_self _ _, ?_⟩
            rw [if_pos rfl, hDeq c hcv]
          · exact Or.inl hp
        · refine Or.inr ⟨Finset.mem_insert_of_mem hp.1, ?_⟩
          rw [hDeq x hp.1, hDeq c hcv]
          exact hp.2
      · intro v hv
        rcases Finset.mem_insert.mp hv with hv | hv
        · rw [hv]
          exact Relation.ReflTransGen.tail (hinv.reach c hcv) hsf
        · exact hinv.reach v hv
  | case3 c q d ih =>
      rintro ⟨D, proc, hinv⟩
      have heq : exploreGo f (some (c, [])) q d = exploreGo f none q d := by
        rw [exploreGo]
      rw [heq]
      have hnodup : (c :: q).Nodup := by
        have := hinv.active_nodup
        rwa [show activeList (some (c, [])) q = c :: q from rfl] at this
      have hDle : ∀ u ∈ c :: q, D c ≤ D u := explore_inv_head_min hinv
      refine ih ⟨D, insert c proc, hinv.start_mem, hinv.start_depth, ?_, ?_, ?_,
        hinv.par_keys_nodup, hinv.par_keys, hinv.par_start, hinv.par_some,
        hinv.par_total, ?_, ?_, ?_, ?_, ?_, ?_, hinv.reach⟩
      · show insert c proc ∪ q.toFinset = d.visited
        rw [← hinv.vis_split,
          show activeList (some (c, [])) q = c :: q from rfl]
        ext y
        simp only [Finset.mem_union, Finset.mem_insert, List.toFinset_cons,
          List.mem_toFinset]
        tauto
      · rw [Finset.disjoint_left]
        intro y hy
        rcases Finset.mem_insert.mp hy with hy | hy
        · rw [hy]
          intro hcq
          exact (List.nodup_cons.mp hnodup).1 (List.mem_toFinset.mp hcq)
        · have := Finset.disjoint_left.mp hinv.disj hy
          rw [show activeList (some (c, [])) q = c :: q from rfl] at this
          intro hq
          have hq' : y ∈ q := List.mem_toFinset.mp hq
          exact this (by simp [hq'])
      · exact (List.nodup_cons.mp hnodup).2
      · have := hinv.sorted
        rw [show activeList (some (c, [])) q = c :: q from rfl, List.map_cons,
          List.sorted_cons] at this
        exact this.2
      · intro u hu w hw
        have hspread := hinv.spread
        rw [show activeList (some (c, [])) q = c :: q from rfl] at hspread
        have hu' : u ∈ q := hu
        have hw' : w ∈ q := hw
        exact hspread u (by simp [hu']) w (by simp [hw'])
      · intro p hp u hu
        have hu' : u ∈ q := hu
        rcases Finset.mem_insert.mp hp with hp | hp
        · rw [hp]
          exact hDle u (by simp [hu'])
        · have := hinv.proc_before p hp
          rw [show activeList (some (c, [])) q = c :: q from rfl] at this
          exact this u (by simp [hu'])
      · intro p hp x hx
        rcases Finset.mem_insert.mp hp with hp | hp
        · rcases hinv.scan_handled c [] rfl x (hp ▸ hx) with h0 | h0
          · cases h0
          · exact ⟨h0.1, hp ▸ h0.2⟩
        · exact hinv.proc_closed p hp x hx
      · intro c' rem' hsome
        cases hsome
      · intro c' rem' hsome
        cases hsome
  | case4 c q d ih =>
      rintro ⟨D, proc, hinv⟩
      have heq : exploreGo f none (c :: q) d =
          exploreGo f (some (c, f c)) q
            ⟨d.visited, graphUpdate d.graph c (f c), d.parent⟩ := by
        rw [exploreGo]
      rw [heq]
      refine ih ⟨D, proc, hinv.start_mem, hinv.start_depth, hinv.vis_split,
        hinv.disj, hinv.active_nodup, hinv.par_keys_nodup, hinv.par_keys,
        hinv.par_start, hinv.par_some, hinv.par_total, hinv.sorted,
        hinv.spread, hinv.proc_before, hinv.proc_closed, ?_, ?_, hinv.reach⟩
      · intro c' rem' hsome x hx
        injection hsome with hsome
        injection hsome with h1 h2
        rw [← h1]
        rw [← h2] at hx
        exact hx
      · intro c' rem' hsome x hx
        injection hsome with hsome
        injection hsome with h1 h2
        rw [← h1] at hx
        rw [← h2]
        exact Or.inl hx
  | case5 d =>
      rintro ⟨D, proc, hinv⟩
      have heq : exploreGo f none [] d = d := by
        rw [exploreGo]
      rw [heq]
      exact ⟨D, proc, hinv⟩

theorem explore_final_inv {S : Type} [DecidableEq S] [Fintype S]
    (f : S → List S) (start : S) :
    ∃ D proc, ExploreInv f start D proc none [] (explore f start) :=
  exploreGo_spec f start none [start]
    ⟨{start}, [(start, [])], [(start, none)]⟩
    ⟨fun _ => 0, ∅, explore_seed_inv f start⟩

theorem explore_walk {S : Type} [DecidableEq S] [Fintype S] {f : S → List S}
    {start : S} {D : S → Nat} {proc : Finset S} {d : BFSData S}
    (hinv : ExploreInv f start D proc none [] d) :
    ∀ n e, e ∈ d.visited → D e = n →
      ∃ wlk : List S, wlk.head? = some start ∧ wlk.getLast? = some e ∧
        wlk.Chain' (EdgeFn f) ∧ wlk.length = D e + 1 ∧
        wlk.map D = List.range (D e + 1) ∧
        ∀ acc fuel, D e + 1 ≤ fuel →
          getPathGo d.parent fuel (some e) acc = wlk ++ acc := by
  intro n
  induction n using Nat.strong_induction_on with
  | _ n ih =>
      intro e he hD
      by_cases hes : e = start
      · subst hes
        have hD0 : D e = 0 := hinv.start_depth
        refine ⟨[e], rfl, rfl, by simp, by simp [hD0], by simp [hD0, show List.range 1 = [0] from rfl], ?_⟩
        intro acc fuel hfuel
        rw [hD0] at hfuel
        cases fuel with
        | zero => omega
        | succ m =>
            rw [getPathGo, hinv.par_start, getPathGo]
            simp
      · obtain ⟨p, hp⟩ := hinv.par_total e he hes
        obtain ⟨hp1, hp2, hp3, hp4⟩ := hinv.par_some e p hp
        have hplt : D p < n := by omega
        obtain ⟨wlk, hw1, hw2, hw3, hw4, hw5, hw6⟩ := ih (D p) hplt p hp1 rfl
        have hwne : wlk ≠ [] := by
          intro hnil
          rw [hnil] at hw4
          simp at hw4
        refine ⟨wlk ++ [e], ?_, ?_, ?_, ?_, ?_, ?_⟩
        · rw [List.head?_append_of_ne_nil _ hwne]
          exact hw1
        · simp
        · refine List.Chain'.append hw3 (by simp) ?_
          intro x hx y hy
          rw [hw2] at hx
          cases hx
          cases hy
          exact hp3
        · simp [hw4, hp4]
        · rw [List.map_append, hw5]
          simp only [List.map_cons, List.map_nil, hp4]
          conv_rhs => rw [List.range_succ]
        · intro acc fuel hfuel
          cases fuel with
          | zero => omega
          | succ m =>
              rw [getPathGo, hp, hw6 (e :: acc) m (by omega)]
              simp

theorem explore_depth_le_path {S : Type} [DecidableEq S] [Fintype S]
    {f : S → List S} {start : S} {D : S → Nat} {proc : Finset S}
    {d : BFSData S} (hinv : ExploreInv f start D proc none [] d) :
    ∀ l : List S, ∀ u, u ∈ d.visited → l.head? = some u →
      l.Chain' (EdgeFn f) → ∀ v, l.getLast? = some v →
        D v + 1 ≤ D u + l.length := by
  have hproc : ∀ v ∈ d.visited, v ∈ proc := by
    intro v hv
    rw [← hinv.vis_split] at hv
    rcases Finset.mem_union.mp hv with hv | hv
    · exact hv
    · simp [activeList] at hv
  intro l
  induction l with
  | nil =>
      intro u hu hh
      cases hh
  | cons x t ih =>
      intro u hu hh hc v hv
      have hxu : x = u := by injection hh
      subst hxu
      cases t with
      | nil =>
          have : v = x := by
            simp at hv
            rw [hv]
          rw [this]
          simp
      | cons y t' =>
          rw [List.chain'_cons] at hc
          have hstep := hinv.proc_closed x (hproc x hu) y hc.1
          have := ih y hstep.1 rfl hc.2 v (by simpa using hv)
          simp only [List.length_cons] at this ⊢
          omega

/-- C7: after exploration from a start state, get_path returns the empty
sequence for an unvisited target, returns the empty sequence when the
reconstructed parent walk does not begin with the requested start, and for a
visited target returns a path from start to the target whose vertex count is
minimal among all paths from start to the target. -/
theorem get_path_shortest {S : Type} [DecidableEq S] [Fintype S]
    (f : S → List S) (start finish : S) :
    (finish ∉ (explore f start).visited →
      get_path (explore f start) start finish = []) ∧
    (∀ start', (getPathGo (explore f start).parent (Fintype.card S)
        (some finish) []).head? ≠ some start' →
      get_path (explore f start) start' finish = []) ∧
    (finish ∈ (explore f start).visited →
      IsPathFrom f start finish (get_path (explore f start) start finish) ∧
      ∀ l, IsPathFrom f start finish l →
        (get_path (explore f start) start finish).length ≤ l.length) := by
  obtain ⟨D, proc, hinv⟩ := explore_final_inv f start
  refine ⟨?_, ?_, ?_⟩
  · intro hnv
    rw [get_path, if_neg hnv]
  · intro start' hhead
    rw [get_path]
    by_cases hv : finish ∈ (explore f start).visited
    · rw [if_pos hv]
      simp only
      rw [if_neg hhead]
    · rw [if_neg hv]
  · intro hv
    obtain ⟨wlk, hw1, hw2, hw3, hw4, hw5, hw6⟩ :=
      explore_walk hinv (D finish) finish hv rfl
    have hnodup : wlk.Nodup := by
      have : (wlk.map D).Nodup := by
        rw [hw5]
        exact List.nodup_range _
      exact this.of_map
    have hcard : D finish + 1 ≤ Fintype.card S := by
      rw [← hw4]
      exact hnodup.length_le_card
    have heval : getPathGo (explore f start).parent (Fintype.card S)
        (some finish) [] = wlk := by
      rw [hw6 [] (Fintype.card S) hcard]
      simp
    have hgp : get_path (explore f start) start finish = wlk := by
      rw [get_path, if_pos hv]
      simp only [heval]
      rw [if_pos hw1]
    constructor
    · rw [hgp]
      exact ⟨hw1, hw2, hw3⟩
    · intro l hl
      obtain ⟨hl1, hl2, hl3⟩ := hl
      have hstart_vis : start ∈ (explore f start).visited := hinv.start_mem
      have := explore_depth_le_path hinv l start hstart_vis hl1 hl3 finish hl2
      rw [hinv.start_depth] at this
      rw [hgp, hw4]
      omega

theorem get_path_shortest_witness :
    (IsPathFrom testGraph 0 3 (get_path (explore testGraph 0) 0 3) ∧
      ∀ l, IsPathFrom testGraph 0 3 l →
        (get_path (explore testGraph 0) 0 3).length ≤ l.length) ∧
    get_path (explore testGraph 0) 0 2 ≠ [] := by
  constructor
  · refine (get_path_shortest testGraph 0 3).2.2 ?_
    simp [explore, exploreGo, testGraph, graphUpdate]
  · have h3 : (3 : Fin 4) ∈ (explore testGraph 0).visited := by
      simp [explore, exploreGo, testGraph, graphUpdate]
    have hp : get_path (explore testGraph 0) 0 2 = [0, 2] := by
      simp [explore, exploreGo, testGraph, get_path, getPathGo, parLookup,
        graphUpdate]
    rw [hp]
    simp

/-- C10: both BFS implementations visit each reachable vertex exactly once.
breadth_first_search invokes on_entry along a duplicate-free trace whose
members form exactly the visited set, and without an early stop the visited
set is exactly the set of vertices reachable from the roots; BFS.explore
records each visited vertex exactly once in its parent dictionary, whose
keys are exactly the visited set, and the visited set is exactly the set of
vertices reachable from the start (both loops are total by construction,
also on graphs containing cycles). -/
theorem bfs_visits_reachable_once {S O : Type} [DecidableEq S] [Fintype S]
    (rg : RootedGraph S) (on_entry : S → O → Bool × O) (userdata : O)
    (f : S → List S) (start : S) :
    (∃ L : List S, L.Nodup ∧
      (breadth_first_search rg on_entry userdata).1 =
        applyEntries on_entry L userdata ∧
      (breadth_first_search rg on_entry userdata).2 = L.toFinset) ∧
    ((∀ s z, (on_entry s z).1 = false) →
      ∀ v, v ∈ (breadth_first_search rg on_entry userdata).2 ↔
        ∃ r ∈ rg.roots, ReachOf rg.neighbors r v) ∧
    ((explore f start).parent.map Prod.fst).Nodup ∧
    (∀ v, v ∈ (explore f start).parent.map Prod.fst ↔
      v ∈ (explore f start).visited) ∧
    (∀ v, v ∈ (explore f start).visited ↔ ReachOf f start v) := by
  obtain ⟨D, proc, hinv⟩ := explore_final_inv f start
  have hspec := breadth_first_search_spec rg on_entry userdata
  refine ⟨hspec.1, hspec.2, hinv.par_keys_nodup, hinv.par_keys, ?_⟩
  intro v
  constructor
  · exact hinv.reach v
  · intro hr
    have hclosed : ∀ u ∈ (explore f start).visited, ∀ x ∈ f u,
        x ∈ (explore f start).visited := by
      intro u hu x hx
      have huproc : u ∈ proc := by
        rw [← hinv.vis_split] at hu
        rcases Finset.mem_union.mp hu with hu | hu
        · exact hu
        · simp [activeList] at hu
      exact (hinv.proc_closed u huproc x hx).1
    exact reach_mem_of_closed hclosed hinv.start_mem hr

theorem bfs_visits_reachable_once_witness :
    (∀ v : Bool, v ∈ (breadth_first_search
        (⟨[false], fun s => [!s]⟩ : RootedGraph Bool)
        (fun _ (z : Unit) => (false, z)) ()).2 ↔
      ∃ r ∈ [false], ReachOf (fun s : Bool => [!s]) r v) ∧
    (∀ v : Fin 4, v ∈ (explore testGraph 0).visited ↔
      ReachOf testGraph 0 v) := by
  have h1 := bfs_visits_reachable_once
    (⟨[false], fun s => [!s]⟩ : RootedGraph Bool)
    (fun _ (z : Unit) => (false, z)) () (fun s : Bool => [!s]) false
  have h2 := bfs_visits_reachable_once
    (⟨[(0 : Fin 4)], testGraph⟩ : RootedGraph (Fin 4))
    (fun _ (z : Unit) => (false, z)) () testGraph 0
  exact ⟨h1.2.1 (fun s z => rfl), h2.2.2.2.2⟩
